import Mathlib

/-!
# Verification of the BMSSP single-source shortest-path implementation

Shallow embedding of `sssp_concept.py` (and the reference Dijkstra of
`hybrid_sssp.py`).  Modelling conventions:

* Python `float` values are idealised as exact rationals; `float('inf')` is
  `⊤`, so distances live in `Dist := WithTop ℚ` and path lengths
  (`path_alpha`) in `Alpha := WithTop ℕ`.
* The module-level dictionaries `d_hat`, `path_alpha`, `pred` are modelled as
  total functions with default `⊤` / `⊤` / `none`: the code only ever reads
  them through `dict.get` with an infinite default (or after guaranteeing the
  key is present), so a stored `inf` and an absent key are observationally
  identical.  `pred` maps to `Option ℕ`, `none` covering both Python `None`
  and an absent key; the two are distinguished by the code only on paths
  where the comparison would raise a `TypeError` (comparing an `int` with
  `None`), which is unreachable because a distance/alpha tie with an
  uninitialised predecessor cannot occur.
* Python `dict`s preserve insertion order; they are embedded as association
  lists that keep that order.  Python `set`s have implementation-defined
  iteration order; they are embedded as strictly sorted lists (iteration in
  increasing key order), which for small dense integer keys coincides with
  CPython's observable order.
* `heapq` pops the minimum tuple under lexicographic tuple comparison; the
  heap is embedded as a plain list with a pop-minimum operation (entries with
  fully equal tuples are interchangeable).
-/

namespace SSSPVerif

/-- Distances: Python floats with `float('inf')`, idealised as `WithTop ℚ`. -/
abbrev Dist : Type := WithTop ℚ

/-- Path-edge counts (`path_alpha` values): naturals or `float('inf')`. -/
abbrev Alpha : Type := WithTop ℕ

/-- `1e-12`, the bump added to the maximum pulled value by `Pull`. -/
def eps12 : ℚ := 1 / 10 ^ 12

/-- `1e-9`, the threshold of the `HEURISTICS_ADJUST_BI` adjustment. -/
def eps9 : ℚ := 1 / 10 ^ 9

/-! ## Sorted-list model of Python sets over vertex ids -/

/-- Insert a vertex into a sorted duplicate-free list (Python `set.add`). -/
def sinsert (x : ℕ) (s : List ℕ) : List ℕ :=
  if x ∈ s then s else List.orderedInsert (· ≤ ·) x s

/-- Set union via repeated insertion (Python `set.update`). -/
def sunion (s t : List ℕ) : List ℕ :=
  t.foldl (fun a x => sinsert x a) s

/-- Boolean subset test (Python `set.issubset`). -/
def subsetB (s t : List ℕ) : Bool :=
  s.all (fun x => x ∈ t)

/-! ## Association-list helpers (Python dicts, insertion ordered) -/

/-- First value stored under a key, if any. -/
def lookupA {β : Type} (l : List (ℕ × β)) (a : ℕ) : Option β :=
  match l with
  | [] => none
  | (k, v) :: rest => if k = a then some v else lookupA rest a

/-! ## Graph representation

`solve_sssp_directed_real_weights` builds `graph : Dict[int, Dict[int, float]]`
from the edge list; outer keys appear in first-occurrence order, inner
neighbour dicts likewise, and a duplicate `(u, v)` edge overwrites the weight
in place (last write wins, position preserved). -/

abbrev Graph : Type := List (ℕ × List (ℕ × ℚ))

/-- Overwrite-or-append for the inner neighbour dict. -/
def setNbr (l : List (ℕ × ℚ)) (v : ℕ) (w : ℚ) : List (ℕ × ℚ) :=
  match l with
  | [] => [(v, w)]
  | (k, x) :: rest => if k = v then (v, w) :: rest else (k, x) :: setNbr rest v w

/-- `graph[u][v] = weight` on the adjacency structure. -/
def insertEdge (g : Graph) (u v : ℕ) (w : ℚ) : Graph :=
  match g with
  | [] => [(u, [(v, w)])]
  | (k, nbrs) :: rest =>
    if k = u then (k, setNbr nbrs v w) :: rest else (k, nbrs) :: insertEdge rest u v w

/-- Build the adjacency structure from the edge list, in list order. -/
def buildGraph (edges : List (ℕ × ℕ × ℚ)) : Graph :=
  edges.foldl (fun g e => insertEdge g e.1 e.2.1 e.2.2) []

/-- `graph.get(u, {})`. -/
def graphGet (g : Graph) (u : ℕ) : List (ℕ × ℚ) :=
  (lookupA g u).getD []

/-- `u in graph`. -/
def graphHas (g : Graph) (u : ℕ) : Bool :=
  (lookupA g u).isSome

/-- Total number of stored edges (used for loop-termination measures). -/
def totalEdges (g : Graph) : ℕ :=
  (g.map (fun p => p.2.length)).sum

/-! ## The per-vertex global state (`d_hat`, `path_alpha`, `pred`) -/

structure VState where
  dh : ℕ → Dist
  pa : ℕ → Alpha
  pr : ℕ → Option ℕ

/-- Write one vertex's record (`d_hat[v] = nd; path_alpha[v] = na; pred[v] = u`). -/
def setV (st : VState) (v : ℕ) (nd : Dist) (na : Alpha) (u : ℕ) : VState :=
  { dh := fun x => if x = v then nd else st.dh x
    pa := fun x => if x = v then na else st.pa x
    pr := fun x => if x = v then some u else st.pr x }

/-- `pred.get(u)`, with `None` (or an absent key) read as `-1`
(`BaseCase`'s seeding and stale-entry checks). -/
def predZ (st : VState) (u : ℕ) : ℤ :=
  (st.pr u).elim (-1) (fun p => (p : ℤ))

/-- The predecessor value used in the relaxation tie-break comparison
(`pred.get(v, float('inf'))`).  An uninitialised predecessor is mapped to
`⊤`; Python would raise a `TypeError` on the (unreachable) path that
compares a stored `None`, see the header comment. -/
def predW (st : VState) (v : ℕ) : WithTop ℤ :=
  (st.pr v).elim ⊤ (fun p => ((p : ℤ) : WithTop ℤ))

/-! ## The ordered frontier (`SimplifiedLemma3_3_DataStructure`)

State: the sorted list `_values` of distinct values together with the
per-value key dicts `_value_to_keys` is embedded as a list of buckets
`(value, entries)` sorted strictly by value, each entries list in insertion
order.  (`_key_to_value` is the derived key-index.) -/

structure DSEntry where
  key : ℕ
  alpha : Alpha
  pv : WithTop ℤ
  deriving DecidableEq, Repr

structure DS where
  M : ℕ
  B : Dist
  buckets : List (Dist × List DSEntry)
  deriving DecidableEq, Repr

/-- `__init__(M, B)`: capacity is floored to 1. -/
def DS.new (M : ℕ) (B : Dist) : DS :=
  ⟨max 1 M, B, []⟩

/-- Look up a key's stored `(value, alpha, pred)` triple
(`_key_to_value` plus the bucket record). -/
def dsFindKey (bks : List (Dist × List DSEntry)) (key : ℕ) :
    Option (Dist × Alpha × WithTop ℤ) :=
  match bks with
  | [] => none
  | (v, es) :: rest =>
    match es.find? (fun e => e.key = key) with
    | some e => some (v, e.alpha, e.pv)
    | none => dsFindKey rest key

/-- `_remove_key`: drop the key from its bucket, dropping the bucket (and its
value from `_values`) if it becomes empty. -/
def dsRemoveKey (bks : List (Dist × List DSEntry)) (key : ℕ) :
    List (Dist × List DSEntry) :=
  match bks with
  | [] => []
  | (v, es) :: rest =>
    if es.any (fun e => e.key = key) then
      let es' := es.filter (fun e => e.key ≠ key)
      if es' = [] then rest else (v, es') :: rest
    else (v, es) :: dsRemoveKey rest key

/-- `_add_to_value_bucket`: `insort` the value if new, then append the key at
the end of the value's dict. -/
def dsAddToBucket (bks : List (Dist × List DSEntry)) (value : Dist) (e : DSEntry) :
    List (Dist × List DSEntry) :=
  match bks with
  | [] => [(value, [e])]
  | (v, es) :: rest =>
    if value = v then (v, es ++ [e]) :: rest
    else if value < v then (value, [e]) :: (v, es) :: rest
    else (v, es) :: dsAddToBucket rest value e

/-- `Insert(key, value, alpha, pred)`: improve-only under the lexicographic
comparison on `(value, alpha, pred)`. -/
def DS.Insert (d : DS) (key : ℕ) (value : Dist) (alpha : Alpha) (pv : WithTop ℤ) : DS :=
  match dsFindKey d.buckets key with
  | none => { d with buckets := dsAddToBucket d.buckets value ⟨key, alpha, pv⟩ }
  | some (oldv, olda, oldp) =>
    if oldv < value then d
    else if value = oldv ∧ (olda < alpha ∨ (alpha = olda ∧ oldp ≤ pv)) then d
    else { d with buckets := dsAddToBucket (dsRemoveKey d.buckets key) value ⟨key, alpha, pv⟩ }

/-- `BatchPrepend(L)`: repeated `Insert`. -/
def DS.BatchPrepend (d : DS) (items : List (ℕ × Dist × Alpha × WithTop ℤ)) : DS :=
  items.foldl (fun a it => a.Insert it.1 it.2.1 it.2.2.1 it.2.2.2) d

/-- The pulling loop of `Pull`: collect up to `m` keys from the smallest
buckets (within a bucket, in insertion order), returning the pulled
`(key, value)` pairs and the remaining buckets. -/
def dsPullGo (m : ℕ) (bks : List (Dist × List DSEntry)) :
    List (ℕ × Dist) × List (Dist × List DSEntry) :=
  match bks with
  | [] => ([], [])
  | (v, es) :: rest =>
    if m = 0 then ([], (v, es) :: rest)
    else if es.length ≤ m then
      let r := dsPullGo (m - es.length) rest
      (es.map (fun e => (e.key, v)) ++ r.1, r.2)
    else ((es.take m).map (fun e => (e.key, v)), (v, es.drop m) :: rest)

/-- `max` of a nonempty list of pulled values (`max(pulled_values)`). -/
def maxPulled (l : List Dist) : Dist :=
  match l with
  | [] => 0
  | h :: t => t.foldl max h

/-- `Pull()`: returns the boundary `x`, the pulled `(key, value)` pairs (in
pull order) and the new structure state. -/
def DS.Pull (d : DS) : Dist × List (ℕ × Dist) × DS :=
  let r := dsPullGo d.M d.buckets
  let x : Dist :=
    match r.2 with
    | (v, _) :: _ => v
    | [] =>
      match r.1 with
      | [] => d.B
      | _ => maxPulled (r.1.map Prod.snd) + (eps12 : ℚ)
  (x, r.1, { d with buckets := r.2 })

/-- `is_empty()`. -/
def DS.isEmpty (d : DS) : Bool :=
  d.buckets = []

/-- `key in D._key_to_value` (used by the seeding heuristic). -/
def DS.hasKey (d : DS) (key : ℕ) : Bool :=
  (dsFindKey d.buckets key).isSome

/-- All keys currently stored, in bucket order. -/
def DS.keys (d : DS) : List ℕ :=
  (d.buckets.map (fun b => b.2.map DSEntry.key)).flatten

/-! ## The relaxation acceptance rule

The acceptance test appears three times in `sssp_concept.py`: in `BaseCase`'s
heap relaxation, in `FindPivots`' Bellman-Ford rounds and in `BMSSP`'s
post-recursion relaxation.  Each occurrence is translated separately below,
structure-for-structure, so that their equality is a statement about the
source rather than an artefact of sharing one definition. -/

/-- The acceptance test of `BaseCase` (lines 236-243). -/
def updateNeededBase (nd : Dist) (na : Alpha) (u : ℕ) (cd : Dist) (ca : Alpha)
    (cp : WithTop ℤ) : Bool :=
  if nd < cd then true
  else if nd = cd then
    if na < ca then true
    else if na = ca ∧ ((u : ℤ) : WithTop ℤ) < cp then true
    else false
  else false

/-- The acceptance test of `FindPivots` (lines 330-338). -/
def updateNeededFP (nd : Dist) (na : Alpha) (u : ℕ) (cd : Dist) (ca : Alpha)
    (cp : WithTop ℤ) : Bool :=
  if nd < cd then true
  else if nd = cd then
    if na < ca then true
    else if na = ca ∧ ((u : ℤ) : WithTop ℤ) < cp then true
    else false
  else false

/-- The acceptance test of `BMSSP`'s step-5 relaxation (lines 555-562). -/
def updateNeededBM (nd : Dist) (na : Alpha) (u : ℕ) (cd : Dist) (ca : Alpha)
    (cp : WithTop ℤ) : Bool :=
  if nd < cd then true
  else if nd = cd then
    if na < ca then true
    else if na = ca ∧ ((u : ℤ) : WithTop ℤ) < cp then true
    else false
  else false

/-- The specification's rule (§4.4): accepted iff
`(new_distance, new_path_length, u)` is lexicographically strictly below
`(distance(v), path_length(v), predecessor(v))`. -/
def specLexAccept (nd : Dist) (na : Alpha) (u : ℕ) (cd : Dist) (ca : Alpha)
    (cp : WithTop ℤ) : Prop :=
  toLex (nd, toLex (na, ((u : ℤ) : WithTop ℤ))) < toLex (cd, toLex (ca, cp))

/-! ## BaseCase (Algorithm 2, mini Dijkstra) -/

/-- A heap entry `(current_dist, current_path_alpha, vertex_id, pred_id)`. -/
structure HEntry where
  d : Dist
  a : Alpha
  vx : ℕ
  pz : ℤ
  deriving DecidableEq, Repr

/-- Lexicographic tuple comparison, as Python compares heap tuples. -/
def hentryLt (e f : HEntry) : Bool :=
  if e.d < f.d then true
  else if e.d = f.d then
    if e.a < f.a then true
    else if e.a = f.a then
      if e.vx < f.vx then true
      else if e.vx = f.vx then decide (e.pz < f.pz)
      else false
    else false
  else false

/-- Remove the first occurrence of an entry from the heap list. -/
def removeFirst (e : HEntry) : List HEntry → List HEntry
  | [] => []
  | f :: rest => if f = e then rest else f :: removeFirst e rest

/-- `heapq.heappop`: extract the minimum entry (the leftmost one among fully
equal minimal tuples). -/
def popMin (H : List HEntry) : Option (HEntry × List HEntry) :=
  match H with
  | [] => none
  | h :: t =>
    let m := t.foldl (fun b f => if hentryLt f b then f else b) h
    some (m, removeFirst m H)

/-- The state threaded through `BaseCase`'s loop. -/
structure BCState where
  st : VState
  H : List HEntry
  U0 : List ℕ
  cands : List (ℕ × Dist)

/-- Relax all outgoing edges of a just-completed vertex `u`
(`BaseCase` lines 224-250): only paths with `new_dist < B` are considered,
accepted updates rewrite the global state and push a heap entry. -/
def bcRelax (g : Graph) (B : Dist) (u : ℕ) (cd : Dist) (ca : Alpha)
    (st : VState) (H : List HEntry) : VState × List HEntry :=
  (graphGet g u).foldl
    (fun acc vw =>
      let v := vw.1
      let ndist : Dist := cd + (vw.2 : ℚ)
      let nalpha : Alpha := ca + 1
      if ndist < B then
        if updateNeededBase ndist nalpha u (acc.1.dh v) (acc.1.pa v) (predW acc.1 v) then
          (setV acc.1 v ndist nalpha u, acc.2 ++ [⟨ndist, nalpha, v, (u : ℤ)⟩])
        else acc
      else acc)
    (st, H)

/-- One check of `BaseCase`'s stale-entry test (lines 207-213): the popped
tuple is discarded when it is lexicographically worse than the vertex's
current global record. -/
def bcStale (st : VState) (e : HEntry) : Bool :=
  if st.dh e.vx < e.d then true
  else if e.d = st.dh e.vx ∧ st.pa e.vx < e.a then true
  else if e.d = st.dh e.vx ∧ e.a = st.pa e.vx ∧ predZ st e.vx < e.pz then true
  else false

/-- `BaseCase`'s main loop (`while H and len(U0) < k_param + 1`), with
explicit fuel.  Exhausted fuel stops the loop in the current state; the
chosen fuel `bcFuel` is provably never exhausted (see `bcLoop_fuel_stable`).
-/
def bcLoop (g : Graph) (k : ℕ) (B : Dist) : ℕ → BCState → BCState
  | 0, s => s
  | fuel + 1, s =>
    if s.H = [] then s
    else if ¬ s.U0.length < k + 1 then s
    else
      match popMin s.H with
      | none => s
      | some (e, H') =>
        if bcStale s.st e then bcLoop g k B fuel { s with H := H' }
        else if e.vx ∈ s.U0 then bcLoop g k B fuel { s with H := H' }
        else
          let r := bcRelax g B e.vx e.d e.a s.st H'
          bcLoop g k B fuel
            { st := r.1, H := r.2, U0 := sinsert e.vx s.U0,
              cands := s.cands ++ [(e.vx, e.d)] }

/-- Python's `sorted` on the completed distances. -/
def sortDists (l : List Dist) : List Dist :=
  l.insertionSort (· ≤ ·)

/-- The post-loop computation of `BaseCase` (lines 252-274). -/
def bcFinish (k : ℕ) (B : Dist) (s : BCState) : Dist × List ℕ :=
  if s.U0.length ≤ k then (B, s.U0)
  else
    let sd := sortDists (s.cands.map Prod.snd)
    let Bp : Dist :=
      if k < sd.length then sd.getD k ⊤
      else
        match sd with
        | [] => B
        | h :: t => t.foldl max h
    let U := (s.cands.filter (fun p => p.2 < Bp)).map Prod.fst
    (Bp, U.foldl (fun a x => sinsert x a) [])

/-- Fuel that provably dominates the loop measure: each iteration pops one
entry, and at most `k + 1` iterations push (each at most `totalEdges g`
entries). -/
def bcFuel (g : Graph) (k : ℕ) (S : List ℕ) : ℕ :=
  S.length + (k + 2) * (totalEdges g + 1) + 1

/-- The decreasing measure of `BaseCase`'s loop: pending heap entries plus
remaining completion capacity, each completion worth one pop and at most
`totalEdges g` pushes. -/
def bcMeasure (g : Graph) (k : ℕ) (s : BCState) : ℕ :=
  s.H.length + (k + 1 - s.U0.length) * (totalEdges g + 1)

/-- `BaseCase(B, S, graph)`: seed the heap from `S` at current global
estimates, run the bounded multi-source Dijkstra loop, then shrink the
result.  Returns `((B', U), final-state)`. -/
def BaseCase (g : Graph) (k : ℕ) (B : Dist) (S : List ℕ) (st : VState) :
    (Dist × List ℕ) × VState :=
  let H0 := S.map (fun x => (⟨st.dh x, st.pa x, x, predZ st x⟩ : HEntry))
  let fin := bcLoop g k B (bcFuel g k S) ⟨st, H0, [], []⟩
  (bcFinish k B fin, fin.st)

/-! ## FindPivots (Algorithm 1) -/

/-- State threaded through the `k` Bellman-Ford rounds: the global vertex
state, the accumulated touched set `W` and the current frontier `Wi`. -/
structure FPState where
  st : VState
  W : List ℕ
  Wi : List ℕ

/-- One relaxation round (lines 316-357): relax every outgoing edge of the
current frontier; a neighbour whose (possibly updated) distance is within
the bound (`<= B`, the `HEURISTICS_BOUNDARY_EQUALITY` default) joins the
next frontier and `W`. -/
def fpRound (g : Graph) (B : Dist) (s : FPState) : FPState :=
  let r :=
    s.Wi.foldl
      (fun (acc : VState × List ℕ × List ℕ) u =>
        if graphHas g u then
          (graphGet g u).foldl
            (fun (a : VState × List ℕ × List ℕ) vw =>
              let v := vw.1
              let nd : Dist := a.1.dh u + (vw.2 : ℚ)
              let na : Alpha := a.1.pa u + 1
              let st' :=
                if updateNeededFP nd na u (a.1.dh v) (a.1.pa v) (predW a.1 v) then
                  setV a.1 v nd na u
                else a.1
              if st'.dh v ≤ B then (st', sinsert v a.2.1, sinsert v a.2.2)
              else (st', a.2.1, a.2.2))
            acc
        else acc)
      (s.st, s.W, [])
  ⟨r.1, r.2.1, r.2.2⟩

/-- The round loop with the early exit (`if len(W) > k_param * len(S)`),
returning the state after the last executed round and whether the early
exit fired. -/
def fpRounds (g : Graph) (B : Dist) (k : ℕ) (S : List ℕ) :
    ℕ → FPState → FPState × Bool
  | 0, s => (s, false)
  | r + 1, s =>
    let s' := fpRound g B s
    if k * S.length < s'.W.length then (s', true)
    else fpRounds g B k S r s'

/-- Build the implicit forest `F` over `W` (lines 370-375): an edge
`(pred v, v)` for each `v ∈ W` whose predecessor lies in `W ∪ S`; adjacency
in a `defaultdict(list)`, children appended in iteration order. -/
def addChild (F : List (ℕ × List ℕ)) (p v : ℕ) : List (ℕ × List ℕ) :=
  match F with
  | [] => [(p, [v])]
  | (k, cs) :: rest =>
    if k = p then (k, cs ++ [v]) :: rest else (k, cs) :: addChild rest p v

def buildF (st : VState) (W S : List ℕ) : List (ℕ × List ℕ) :=
  W.foldl
    (fun F v =>
      match st.pr v with
      | none => F
      | some p => if p ∈ W ∨ p ∈ S then addChild F p v else F)
    []

/-- `dfs_calculate_subtree_size`: depth-first size count with a (shared,
mutable) visited set; each pivot's traversal starts from a fresh one.  The
fuel argument only bounds the recursion depth and is provably sufficient at
`dfsFuel`. -/
def dfsNode (F : List (ℕ × List ℕ)) : ℕ → ℕ → List ℕ → ℕ × List ℕ
  | 0, _, vis => (0, vis)
  | fuel + 1, node, vis =>
    if node ∈ vis then (0, vis)
    else
      ((lookupA F node).getD []).foldl
        (fun (acc : ℕ × List ℕ) c =>
          let r := dfsNode F fuel c acc.2
          (acc.1 + r.1, r.2))
        (1, node :: vis)

/-- Recursion-depth bound for `dfsNode`: one more than the number of nodes
occurring in the forest. -/
def dfsFuel (F : List (ℕ × List ℕ)) : ℕ :=
  F.length + (F.map (fun p => p.2.length)).sum + 2

/-- `FindPivots(B, S, graph)`: `k` relaxation rounds with early exit, then
pivot selection by per-root subtree size (each root's DFS uses its own fresh
visited set).  Returns `((P, W), final-state)`. -/
def FindPivots (g : Graph) (k : ℕ) (B : Dist) (S : List ℕ) (st : VState) :
    (List ℕ × List ℕ) × VState :=
  let r := fpRounds g B k S k ⟨st, S, S⟩
  if r.2 then ((S, r.1.W), r.1.st)
  else
    let F := buildF r.1.st r.1.W S
    let P := S.filter (fun s => s ∈ r.1.W ∧ k ≤ (dfsNode F (dfsFuel F) s []).1)
    ((P, r.1.W), r.1.st)

/-! ## BMSSP (Algorithm 3) -/

/-- The heuristic toggles of `sssp_concept.py`, all enabled by default. -/
def HEURISTICS_ENABLED : Bool := true

def HEURISTICS_SEEDING : Bool := true

def HEURISTICS_RELAX_INSERT : Bool := true

def HEURISTICS_LARGE_M : Bool := true

def HEURISTICS_BOUNDARY_EQUALITY : Bool := true

def HEURISTICS_ADJUST_BI : Bool := true

/-- The frontier capacity of a level-`l` frame (`l ≥ 1`; lines 444-447):
`max(64, 2^((l-1)·t))` in the heuristic default, `2^((l-1)·t)` otherwise.
(The exponent `(l-1)·t` is never negative for `l ≥ 1`.) -/
def mCapacity (l t : ℕ) : ℕ :=
  if HEURISTICS_ENABLED ∧ HEURISTICS_LARGE_M then max 64 (2 ^ ((l - 1) * t))
  else 2 ^ ((l - 1) * t)

/-- A batch-prepend item `(key, value, alpha, pred)`. -/
abbrev BItem : Type := ℕ × Dist × Alpha × WithTop ℤ

/-- Relaxation of one edge `(u, v, w)` out of a completed vertex in
`BMSSP`'s step 5 (lines 546-581), parameterised by the
`HEURISTICS_RELAX_INSERT` toggle: an accepted update rewrites the global
state and either inserts the neighbour into the frontier unconditionally
(toggle on) or routes it by the distance intervals `[Bi, B)` (insert) and
`[B'i, Bi)` (queue for batch-prepend). -/
def bmRelaxEdge (relaxInsert : Bool) (B Bi Bpi : Dist) (u v : ℕ) (w : ℚ)
    (st : VState) (D : DS) (K : List BItem) : VState × DS × List BItem :=
  let nd : Dist := st.dh u + (w : ℚ)
  let na : Alpha := st.pa u + 1
  if updateNeededBM nd na u (st.dh v) (st.pa v) (predW st v) then
    let st' := setV st v nd na u
    if HEURISTICS_ENABLED ∧ relaxInsert then
      (st', D.Insert v (st'.dh v) (st'.pa v) (predW st' v), K)
    else if Bi ≤ nd ∧ nd < B then
      (st', D.Insert v (st'.dh v) (st'.pa v) (predW st' v), K)
    else if Bpi ≤ nd ∧ nd < Bi then
      (st', D, K ++ [(v, st'.dh v, st'.pa v, predW st' v)])
    else (st', D, K)
  else (st, D, K)

/-- Step 5 in full: relax every outgoing edge of every vertex of `Ui`. -/
def bmRelaxAll (g : Graph) (B Bi Bpi : Dist) (Ui : List ℕ)
    (st : VState) (D : DS) : VState × DS × List BItem :=
  Ui.foldl
    (fun (acc : VState × DS × List BItem) u =>
      if graphHas g u then
        (graphGet g u).foldl
          (fun (a : VState × DS × List BItem) vw =>
            bmRelaxEdge HEURISTICS_RELAX_INSERT B Bi Bpi u vw.1 vw.2 a.1 a.2.1 a.2.2)
          acc
      else acc)
    (st, D, [])

/-- The `HEURISTICS_ADJUST_BI` adjustment for tiny pulled boundaries
(lines 516-529). -/
def adjustBi (g : Graph) (st : VState) (Bi : Dist) (Si : List ℕ) : Dist :=
  if HEURISTICS_ENABLED ∧ HEURISTICS_ADJUST_BI ∧ Bi < (eps9 : ℚ) then
    let minPos : Dist :=
      Si.foldl
        (fun m u =>
          (graphGet g u).foldl
            (fun m2 vw =>
              let cand : Dist := st.dh u + (vw.2 : ℚ)
              if st.dh u < cand ∧ cand < m2 then cand else m2)
            m)
        ⊤
    if minPos < ⊤ then minPos
    else
      let maxP : Dist := Si.foldl (fun m u => max m (st.dh u)) (0 : ℚ)
      maxP + (eps12 : ℚ)
  else Bi

/-- The loop state of one `BMSSP` frame.  `trace` and `stallBroke` are ghost
observations (the sequence of pulled key sets and whether the stall detector
fired); no algorithm step reads them. -/
structure LoopState where
  st : VState
  D : DS
  curU : List ℕ
  lastBp : Dist
  processed : List ℕ
  stall : ℕ
  trace : List (List ℕ)
  stallBroke : Bool

/-- The main loop of a level-`l` frame (lines 493-597), parameterised by the
recursive call `recur = BMSSP(l-1, ·, ·)`.  The fuel argument is the
iteration cap `max(1000, 10·n)` itself: the source breaks out of the loop
once `iteration_count` exceeds it, so the cap doubles as structural fuel. -/
def bmLoop (g : Graph) (recur : Dist → List ℕ → VState → (Dist × List ℕ) × VState)
    (B : Dist) (maxU : ℕ) : ℕ → LoopState → LoopState
  | 0, s => s
  | fuel + 1, s =>
    if ¬ s.curU.length < maxU then s
    else if s.D.isEmpty then s
    else
      let pr := s.D.Pull
      let Si := (pr.2.1.map Prod.fst).foldl (fun a x => sinsert x a) []
      let s := { s with trace := s.trace ++ [Si] }
      if subsetB Si s.processed ∧ 5 < s.stall + 1 then
        { s with D := pr.2.2, stall := s.stall + 1, stallBroke := true }
      else
        let processed' := if subsetB Si s.processed then s.processed else sunion s.processed Si
        let stall' := if subsetB Si s.processed then s.stall + 1 else 0
        let Bi := adjustBi g s.st pr.1 Si
        let rr := recur Bi Si s.st
        let Bp := rr.1.1
        let Ui := rr.1.2
        let curU' := sunion s.curU Ui
        let rx := bmRelaxAll g B Bi Bp Ui rr.2 pr.2.2
        let batch2 :=
          (Si.filter (fun x => Bp ≤ rx.1.dh x ∧ rx.1.dh x < Bi)).map
            (fun x => ((x, rx.1.dh x, rx.1.pa x, predW rx.1 x) : BItem))
        let D' := rx.2.1.BatchPrepend (rx.2.2 ++ batch2)
        bmLoop g recur B maxU fuel
          { st := rx.1, D := D', curU := curU', lastBp := Bp,
            processed := processed', stall := stall', trace := s.trace,
            stallBroke := false }

/-- `BMSSP(l, B, S, graph)`.  Level 0 delegates to `BaseCase`; a level-
`l+1` frame runs `FindPivots`, seeds the frontier, loops, and folds the
within-boundary part of `W` into the completed set. -/
def BMSSP (g : Graph) (k t n : ℕ) : ℕ → Dist → List ℕ → VState → (Dist × List ℕ) × VState
  | 0, B, S, st => BaseCase g k B S st
  | l + 1, B, S, st =>
    let fp := FindPivots g k B S st
    let P := fp.1.1
    let W := fp.1.2
    let st1 := fp.2
    let D0 := DS.new (mCapacity (l + 1) t) B
    let D1 := P.foldl (fun d x => d.Insert x (st1.dh x) (st1.pa x) (predW st1 x)) D0
    let D2 :=
      if HEURISTICS_ENABLED ∧ HEURISTICS_SEEDING then
        W.foldl
          (fun d w =>
            if graphHas g w then
              (graphGet g w).foldl
                (fun d2 vw =>
                  if ¬ d2.hasKey vw.1 ∧ st1.dh vw.1 ≠ ⊤ then
                    d2.Insert vw.1 (st1.dh vw.1) (st1.pa vw.1) (predW st1 vw.1)
                  else d2)
                d
            else d)
          D1
      else D1
    let Bp0 : Dist :=
      match P with
      | [] => B
      | p :: ps => ps.foldl (fun m x => min m (st1.dh x)) (st1.dh p)
    let maxU := k * 2 ^ ((l + 1) * t)
    let maxIter := max 1000 (n * 10)
    let fin := bmLoop g (BMSSP g k t n l) B maxU maxIter
      ⟨st1, D2, [], Bp0, [], 0, [], false⟩
    let retBp : Dist := if fin.D.isEmpty then B else min fin.lastBp B
    let U' := W.foldl (fun u x => if fin.st.dh x < retBp then sinsert x u else u) fin.curU
    ((retBp, U'), fin.st)

/-! ## The solve entry point -/

/-- The per-vertex state after `solve`'s initialisation: every dictionary is
cleared and re-filled for `range(n)` (distance `∞`, alpha `∞`, predecessor
`None`), then the source gets distance `0` and alpha `0`. -/
def initState (source : ℕ) : VState :=
  { dh := fun v => if v = source then (0 : ℚ) else ⊤
    pa := fun v => if v = source then (0 : ℕ) else ⊤
    pr := fun _ => none }

/-- The computable core of `solve_sssp_directed_real_weights`, parameterised
by the derived size parameters `k`, `t`, `l_max` (which the source computes
with floating-point logarithms; see `kParam`, `tParam`, `lmaxParam`).
Returns the finite-distance map (as a list over `range n`) and the final
state. -/
def solveCore (n : ℕ) (edges : List (ℕ × ℕ × ℚ)) (source k t lmax : ℕ) :
    List (ℕ × ℚ) × VState :=
  let g := buildGraph edges
  let r := BMSSP g k t n lmax ⊤ [source] (initState source)
  let res :=
    (List.range n).foldr
      (fun v a =>
        match r.2.dh v with
        | ⊤ => a
        | (q : ℚ) => (v, q) :: a)
      []
  (res, r.2)

/-- `k_param = max(1, floor(log2(max(2, n)) ** (1/3)))`, the float logarithm
idealised as the real logarithm. -/
noncomputable def kParam (n : ℕ) : ℕ :=
  max 1 (Nat.floor ((Real.logb 2 (max 2 n : ℕ)) ^ ((1 : ℝ) / 3)))

/-- `t_param = max(1, floor(log2(max(2, n)) ** (2/3)))`. -/
noncomputable def tParam (n : ℕ) : ℕ :=
  max 1 (Nat.floor ((Real.logb 2 (max 2 n : ℕ)) ^ ((2 : ℝ) / 3)))

/-- `l_max = ceil(log2(max(2, n)) / t)` guarded by `max(2, n) > 1` — a test
that is always true, so the `0` branch is dead code. -/
noncomputable def lmaxParam (n : ℕ) : ℕ :=
  if 1 < max 2 n then Nat.ceil ((Real.logb 2 (max 2 n : ℕ)) / (tParam n : ℝ)) else 0

/-- `solve_sssp_directed_real_weights(n, m, edges, source)`; `m` is unused by
the source.  Only the returned distance map. -/
noncomputable def solve (n m : ℕ) (edges : List (ℕ × ℕ × ℚ)) (source : ℕ) :
    List (ℕ × ℚ) :=
  (solveCore n edges source (kParam n) (tParam n) (lmaxParam n)).1

/-! ## The reference Dijkstra (`hybrid_sssp.dijkstra_single_source`) -/

/-- `(d, u)` tuples of the Dijkstra priority queue, popped lexicographically. -/
def dpopMin (pq : List (ℚ × ℕ)) : Option ((ℚ × ℕ) × List (ℚ × ℕ)) :=
  match pq with
  | [] => none
  | h :: t =>
    let m := t.foldl
      (fun b f => if f.1 < b.1 ∨ (f.1 = b.1 ∧ f.2 < b.2) then f else b) h
    some (m, (h :: t).eraseP (fun x => x = m))

/-- Dijkstra's state: the `dist` dict, the queue and the visited set. -/
structure DijState where
  dist : List (ℕ × ℚ)
  pq : List (ℚ × ℕ)
  visited : List ℕ

/-- `dist.get(v, inf)` as an optional rational. -/
def dGet (dist : List (ℕ × ℚ)) (v : ℕ) : Option ℚ :=
  lookupA dist v

/-- Overwrite-or-append on the `dist` dict. -/
def dSet (dist : List (ℕ × ℚ)) (v : ℕ) (q : ℚ) : List (ℕ × ℚ) :=
  match dist with
  | [] => [(v, q)]
  | (k, x) :: rest => if k = v then (v, q) :: rest else (k, x) :: dSet rest v q

/-- The Dijkstra loop with fuel (provably sufficient at `dijFuel`). -/
def dijLoop (g : Graph) : ℕ → DijState → DijState
  | 0, s => s
  | fuel + 1, s =>
    match dpopMin s.pq with
    | none => s
    | some (du, pq') =>
      if du.2 ∈ s.visited then dijLoop g fuel { s with pq := pq' }
      else
        let r :=
          (graphGet g du.2).foldl
            (fun (a : List (ℕ × ℚ) × List (ℚ × ℕ)) vw =>
              let ndist := du.1 + vw.2
              match dGet a.1 vw.1 with
              | some old =>
                if ndist < old then (dSet a.1 vw.1 ndist, a.2 ++ [(ndist, vw.1)])
                else a
              | none => (dSet a.1 vw.1 ndist, a.2 ++ [(ndist, vw.1)]))
            (s.dist, pq')
        dijLoop g fuel { dist := r.1, pq := r.2, visited := du.2 :: s.visited }

/-- Generous fuel for `dijLoop`: each iteration pops one queue entry, and at
most one visit per stored vertex each pushes at most `totalEdges g`. -/
def dijFuel (g : Graph) : ℕ :=
  (2 * totalEdges g + 2) * (totalEdges g + 2) + 2

/-- `dijkstra_single_source(graph, n, source)`. -/
def dijkstra (g : Graph) (n source : ℕ) : List (ℕ × ℚ) :=
  (dijLoop g (dijFuel g) ⟨[(source, 0)], [(0, source)], []⟩).dist

/-! ## The module-level state (for the purity claim)

`sssp_concept.py` keeps `d_hat`, `pred`, `path_alpha`, `k_param`, `t_param`
and `N_vertices` as module globals.  A dictionary is observed only through
`get` with a default, so it is modelled by its lookup function; `clear()`
turns it into the everywhere-default function. -/

structure ModState where
  dh : ℕ → Dist
  pa : ℕ → Alpha
  pr : ℕ → Option ℕ
  kP : ℕ
  tP : ℕ
  nV : ℕ

/-- The lookup function of a dictionary on which `clear()` was just called. -/
def clearedDh : ℕ → Dist := fun _ => ⊤

def clearedPa : ℕ → Alpha := fun _ => ⊤

def clearedPr : ℕ → Option ℕ := fun _ => none

/-- The `for v_id in range(N_vertices)` initialisation loop (lines 639-642),
starting from the cleared dictionaries. -/
def initLoop (n : ℕ) (st : VState) : VState :=
  (List.range n).foldl
    (fun a v =>
      { dh := fun x => if x = v then ⊤ else a.dh x
        pa := fun x => if x = v then ⊤ else a.pa x
        pr := fun x => if x = v then none else a.pr x })
    st

/-- `solve_sssp_directed_real_weights` acting on the module state: clear and
re-initialise the per-vertex dictionaries, set the source record, re-derive
the parameters from `n`, run `BMSSP`, and return the finite-distance map
together with the new module state. -/
noncomputable def solveFull (ms : ModState) (n m : ℕ)
    (edges : List (ℕ × ℕ × ℚ)) (source : ℕ) : List (ℕ × ℚ) × ModState :=
  let st0 : VState := initLoop n ⟨clearedDh, clearedPa, clearedPr⟩
  let st1 : VState :=
    { dh := fun x => if x = source then (0 : ℚ) else st0.dh x
      pa := fun x => if x = source then (0 : ℕ) else st0.pa x
      pr := st0.pr }
  let k := kParam n
  let t := tParam n
  let lmax := lmaxParam n
  let g := buildGraph edges
  let r := BMSSP g k t n lmax ⊤ [source] st1
  let res :=
    (List.range n).foldr
      (fun v a =>
        match r.2.dh v with
        | ⊤ => a
        | (q : ℚ) => (v, q) :: a)
      []
  (res, ⟨r.2.dh, r.2.pa, r.2.pr, k, t, n⟩)

/-! ## Directed walks (for the over-claiming analysis)

Every finite `d_hat` value the algorithm ever stores is the total weight of
an actual directed walk from the source; this is the salvageable part of the
Dijkstra-agreement property. -/

inductive Walk (g : Graph) (s : ℕ) : ℕ → ℚ → Prop
  | nil : Walk g s s 0
  | cons {u : ℕ} {q : ℚ} {v : ℕ} {w : ℚ} :
      Walk g s u q → (v, w) ∈ graphGet g u → Walk g s v (q + w)

/-- Invariant: every finite stored distance is a walk weight. -/
def WInv (g : Graph) (s : ℕ) (st : VState) : Prop :=
  ∀ v q, st.dh v = (q : ℚ) → Walk g s v q

/-- Invariant for heap entries carried by `BaseCase`. -/
def HInv (g : Graph) (s : ℕ) (H : List HEntry) : Prop :=
  ∀ e ∈ H, ∀ q : ℚ, e.d = (q : ℚ) → Walk g s e.vx q

/-- All weights stored in the adjacency structure are non-negative. -/
def NonnegG (g : Graph) : Prop :=
  ∀ u vw, vw ∈ graphGet g u → (0 : ℚ) ≤ vw.2

/-! ## Reachable frontier states (claim about `Pull`) -/

/-- The keys stored in a raw bucket list, in bucket order. -/
def keysOf (bks : List (Dist × List DSEntry)) : List ℕ :=
  (bks.map (fun b => b.2.map DSEntry.key)).flatten

/-- The states of the ordered frontier reachable from a fresh structure by
any sequence of `Insert` and `BatchPrepend` calls carrying finite values.
(Every call site in `sssp_concept.py` inserts a finite `d_hat` value:
pivots, the seeding heuristic — which filters `dv != inf` — the relax-insert
heuristic and the batch-prepend re-queue all do.) -/
inductive DSReach : DS → Prop
  | init (M : ℕ) (B : Dist) : DSReach (DS.new M B)
  | ins {d : DS} (key : ℕ) (q : ℚ) (alpha : Alpha) (pv : WithTop ℤ) :
      DSReach d → DSReach (d.Insert key (q : ℚ) alpha pv)
  | batch {d : DS} (items : List BItem) (hfin : ∀ it ∈ items, it.2.1 ≠ (⊤ : Dist)) :
      DSReach d → DSReach (d.BatchPrepend items)

/-- The structural invariant of the frontier: bucket values strictly sorted
(the `_values` list), no empty bucket, finite values, globally distinct
keys, capacity at least one. -/
def DSInv (d : DS) : Prop :=
  (d.buckets.map Prod.fst).Sorted (· < ·)
  ∧ (∀ b ∈ d.buckets, b.2 ≠ [])
  ∧ (∀ b ∈ d.buckets, b.1 ≠ (⊤ : Dist))
  ∧ d.keys.Nodup
  ∧ 1 ≤ d.M

/-! ## Round-indexed view of FindPivots (for the early-exit claim) -/

/-- Plain iteration of the relaxation round, with no early exit. -/
def fpIter (g : Graph) (B : Dist) (s : FPState) : ℕ → FPState
  | 0 => s
  | i + 1 => fpRound g B (fpIter g B s i)

/-! ## Concrete inputs used by the counterexamples and witnesses -/

/-- A 5-vertex graph with non-negative weights on which the solver returns a
wrong finite distance for vertex 2 (found by random search, then shrunk). -/
def esOver : List (ℕ × ℕ × ℚ) :=
  [(3, 2, 3), (4, 1, 0), (0, 3, 2), (1, 2, 1), (3, 0, 3), (2, 3, 2), (3, 4, 1)]

/-- A 5-vertex graph with non-negative weights whose final state violates the
relaxed-edge invariant on the edge `(1, 2, 3)`. -/
def esEdge : List (ℕ × ℕ × ℚ) :=
  [(4, 0, 2), (1, 0, 0), (1, 4, 2), (3, 4, 1), (0, 3, 0), (1, 2, 3), (4, 1, 2)]

/-- A concrete global state for the routing counterexample: vertex 0 has
distance 1 and path length 1, everything else is untouched. -/
def stC4 : VState :=
  { dh := fun x => if x = 0 then (1 : ℚ) else ⊤
    pa := fun x => if x = 0 then (1 : ℕ) else ⊤
    pr := fun _ => none }

/-- The first concrete scenario of the specification (§8). -/
def esSpec1 : List (ℕ × ℕ × ℚ) :=
  [(0, 1, 1), (0, 2, 4), (1, 2, 2), (1, 3, 5), (2, 3, 1)]

/-!
# Theorems

Batteries marks the rational field operations `@[irreducible]`; they are
restored to normal reducibility locally so that concrete runs of the
(entirely computable) embedding can be checked by `decide`.
-/

attribute [local semireducible] Rat.add Rat.sub Rat.mul Rat.inv

/-! ## Claim C3: one relaxation rule at all three sites -/

theorem updateNeededBase_iff_lex (nd : Dist) (na : Alpha) (u : ℕ) (cd : Dist)
    (ca : Alpha) (cp : WithTop ℤ) :
    updateNeededBase nd na u cd ca cp = true ↔ specLexAccept nd na u cd ca cp := by
  unfold updateNeededBase specLexAccept
  rw [Prod.Lex.lt_iff, Prod.Lex.lt_iff]
  by_cases h1 : nd < cd
  · simp [h1]
  · by_cases h2 : nd = cd
    · by_cases h3 : na < ca
      · simp [h1, h2, h3]
      · by_cases h45 : na = ca ∧ ((u : ℤ) : WithTop ℤ) < cp
        · simp [h1, h2, h3, h45.1, h45.2]
        · simp only [if_neg h1, if_pos h2, if_neg h3, if_neg h45]
          simp only [not_and] at h45
          constructor
          · intro h; cases h
          · rintro (h | ⟨-, (h4 | ⟨h5, h6⟩)⟩)
            · exact absurd h h1
            · exact absurd h4 h3
            · exact absurd h6 (h45 h5)
    · simp [h1, h2]

/-- Claim C3: the edge-relaxation acceptance rule is one and the same
function at all three relaxation sites (`BaseCase`'s heap relaxation,
`FindPivots`' Bellman-Ford rounds, `BMSSP`'s post-recursion relaxation), and
an update is accepted iff `(distance(u)+w, path_length(u)+1, u)` is
lexicographically strictly smaller than
`(distance(v), path_length(v), predecessor(v))`. -/
theorem claimC3 (nd : Dist) (na : Alpha) (u : ℕ) (cd : Dist) (ca : Alpha)
    (cp : WithTop ℤ) :
    updateNeededBase nd na u cd ca cp = updateNeededFP nd na u cd ca cp
    ∧ updateNeededFP nd na u cd ca cp = updateNeededBM nd na u cd ca cp
    ∧ (updateNeededBase nd na u cd ca cp = true ↔ specLexAccept nd na u cd ca cp) :=
  ⟨rfl, rfl, updateNeededBase_iff_lex nd na u cd ca cp⟩

/-! ## Claim C10: `solve` is a pure function of its arguments -/

/-- Claim C10: `solve_sssp_directed_real_weights` behaves as a pure
deterministic function of `(n, m, edges, source)` despite the module-level
mutable state: it clears and re-initialises `d_hat`, `pred`, `path_alpha`
and re-derives the parameters on every call, so the returned distance map
does not depend on the incoming module state — in particular two calls with
identical arguments agree, even when one of them follows a solve on a
different graph. -/
theorem claimC10 (ms1 ms2 : ModState) (n m : ℕ) (edges : List (ℕ × ℕ × ℚ))
    (source : ℕ) (n' m' : ℕ) (edges' : List (ℕ × ℕ × ℚ)) (source' : ℕ) :
    (solveFull ms1 n m edges source).1 = (solveFull ms2 n m edges source).1
    ∧ (solveFull (solveFull ms1 n' m' edges' source').2 n m edges source).1
        = (solveFull ms2 n m edges source).1
    ∧ (solveFull ms1 n m edges source).2.kP = kParam n
    ∧ (solveFull ms1 n m edges source).2.tP = tParam n
    ∧ (solveFull ms1 n m edges source).2.nV = n :=
  ⟨rfl, rfl, rfl, rfl, rfl⟩

/-! ## Claim C9: the derived size parameters -/

theorem logb_two_two : Real.logb 2 2 = 1 :=
  Real.logb_self_eq_one (by norm_num)

theorem logb_two_four : Real.logb 2 4 = 2 := by
  have h4 : (4 : ℝ) = 2 ^ (2 : ℕ) := by norm_num
  rw [h4, Real.logb_pow, logb_two_two]
  norm_num

theorem tParam_one : tParam 1 = 1 := by
  unfold tParam
  norm_num [logb_two_two, Real.one_rpow]

theorem lmaxParam_one : lmaxParam 1 = 1 := by
  unfold lmaxParam
  rw [if_pos (by norm_num)]
  norm_num [tParam_one, logb_two_two]

/-- Counterexample to claim C9: at `n = 1` the code derives `l_max = 1`, not
`0` (the guard `n_for_log_calc > 1` tests the clamped value `max(2, n)` and
is always true), and a level-1 frame's frontier capacity is
`max(64, 2^((l-1)·t)) = 64`, not `2^((l-1)·t)` floored to 1. -/
theorem claimC9_counterexample :
    lmaxParam 1 = 1 ∧ lmaxParam 1 ≠ 0
    ∧ mCapacity 1 1 = 64 ∧ mCapacity 1 1 ≠ max 1 (2 ^ ((1 - 1) * 1)) := by
  refine ⟨lmaxParam_one, ?_, by decide, by decide⟩
  rw [lmaxParam_one]; decide

/-- Claim C9 as amended: for `n ≥ 2` (the code clamps `n` to at least 2
before taking logarithms, so below that the formulas read `log₂ 2`),
`k = max(1, ⌊log₂(n)^(1/3)⌋)` and `t = max(1, ⌊log₂(n)^(2/3)⌋)` as claimed,
and `l_max = ⌈log₂(n)/t⌉`; but `l_max` is never 0 (see the counterexample),
and a BMSSP frame at level `l ≥ 1` creates its frontier with capacity
`max(64, 2^((l-1)·t))` — the `HEURISTICS_LARGE_M` default — rather than
`2^((l-1)·t)` floored to 1. -/
theorem claimC9_amended (n : ℕ) (h : 2 ≤ n) :
    kParam n = max 1 (Nat.floor ((Real.logb 2 (n : ℝ)) ^ ((1 : ℝ) / 3)))
    ∧ tParam n = max 1 (Nat.floor ((Real.logb 2 (n : ℝ)) ^ ((2 : ℝ) / 3)))
    ∧ lmaxParam n = Nat.ceil ((Real.logb 2 (n : ℝ)) / (tParam n : ℝ))
    ∧ (∀ l t : ℕ, mCapacity (l + 1) t = max 64 (2 ^ (l * t))) := by
  have hm : max 2 n = n := Nat.max_eq_right h
  refine ⟨?_, ?_, ?_, ?_⟩
  · unfold kParam; rw [hm]
  · unfold tParam; rw [hm]
  · unfold lmaxParam
    rw [if_pos (by omega : 1 < max 2 n), hm]
  · intro l t
    simp [mCapacity, HEURISTICS_ENABLED, HEURISTICS_LARGE_M]

/-! ## Claim C4: routing of relaxed neighbours in BMSSP's step 5 -/

/-- Counterexample to claim C4: relaxing the edge `(0, 1, 1)` under bound
`B = 20` with `Bi = 10` and `B'i = 0` accepts the update and produces the
new distance `2 ∈ [B'i, Bi)`; the claim requires the neighbour to be queued
for batch-prepend, but the code (with the default
`HEURISTICS_RELAX_INSERT = True`) inserts it directly into the frontier and
leaves the batch-prepend queue empty. -/
theorem claimC4_counterexample :
    HEURISTICS_RELAX_INSERT = true
    ∧ updateNeededBM (stC4.dh 0 + (1 : ℚ)) (stC4.pa 0 + 1) 0 (stC4.dh 1)
        (stC4.pa 1) (predW stC4 1) = true
    ∧ ((0 : ℚ) : Dist) ≤ stC4.dh 0 + (1 : ℚ)
    ∧ stC4.dh 0 + (1 : ℚ) < ((10 : ℚ) : Dist)
    ∧ ¬ ((10 : ℚ) : Dist) ≤ stC4.dh 0 + (1 : ℚ)
    ∧ (bmRelaxEdge HEURISTICS_RELAX_INSERT ((20 : ℚ) : Dist) ((10 : ℚ) : Dist)
        ((0 : ℚ) : Dist) 0 1 1 stC4 (DS.new 4 ((20 : ℚ) : Dist)) []).2.2 = []
    ∧ (bmRelaxEdge HEURISTICS_RELAX_INSERT ((20 : ℚ) : Dist) ((10 : ℚ) : Dist)
        ((0 : ℚ) : Dist) 0 1 1 stC4 (DS.new 4 ((20 : ℚ) : Dist)) []).2.1.hasKey 1
        = true := by
  decide

/-- Claim C4 as amended: in `BMSSP`'s step-5 relaxation, an accepted update
of `v` via `u` is routed by the half-open intervals `[Bi, B)` (direct
insertion) and `[B'i, Bi)` (batch-prepend queue) only when
`HEURISTICS_RELAX_INSERT` is disabled; under the default configuration
(`HEURISTICS_RELAX_INSERT = True`, which `BMSSP` passes to the relaxation)
every accepted neighbour is inserted directly into the frontier regardless
of the intervals, and the batch-prepend queue receives only the re-queued
`Si` vertices. -/
theorem claimC4_amended (B Bi Bpi : Dist) (u v : ℕ) (w : ℚ) (st : VState)
    (D : DS) (K : List BItem)
    (hacc : updateNeededBM (st.dh u + (w : ℚ)) (st.pa u + 1) u (st.dh v)
      (st.pa v) (predW st v) = true) :
    HEURISTICS_RELAX_INSERT = true
    ∧ (bmRelaxEdge true B Bi Bpi u v w st D K =
        (setV st v (st.dh u + (w : ℚ)) (st.pa u + 1) u,
          D.Insert v ((setV st v (st.dh u + (w : ℚ)) (st.pa u + 1) u).dh v)
            ((setV st v (st.dh u + (w : ℚ)) (st.pa u + 1) u).pa v)
            (predW (setV st v (st.dh u + (w : ℚ)) (st.pa u + 1) u) v), K))
    ∧ (Bi ≤ st.dh u + (w : ℚ) ∧ st.dh u + (w : ℚ) < B →
        bmRelaxEdge false B Bi Bpi u v w st D K =
          (setV st v (st.dh u + (w : ℚ)) (st.pa u + 1) u,
            D.Insert v ((setV st v (st.dh u + (w : ℚ)) (st.pa u + 1) u).dh v)
              ((setV st v (st.dh u + (w : ℚ)) (st.pa u + 1) u).pa v)
              (predW (setV st v (st.dh u + (w : ℚ)) (st.pa u + 1) u) v), K))
    ∧ (¬ (Bi ≤ st.dh u + (w : ℚ) ∧ st.dh u + (w : ℚ) < B) →
        Bpi ≤ st.dh u + (w : ℚ) ∧ st.dh u + (w : ℚ) < Bi →
        bmRelaxEdge false B Bi Bpi u v w st D K =
          (setV st v (st.dh u + (w : ℚ)) (st.pa u + 1) u, D,
            K ++ [(v, (setV st v (st.dh u + (w : ℚ)) (st.pa u + 1) u).dh v,
              (setV st v (st.dh u + (w : ℚ)) (st.pa u + 1) u).pa v,
              predW (setV st v (st.dh u + (w : ℚ)) (st.pa u + 1) u) v)]))
    ∧ (¬ (Bi ≤ st.dh u + (w : ℚ) ∧ st.dh u + (w : ℚ) < B) →
        ¬ (Bpi ≤ st.dh u + (w : ℚ) ∧ st.dh u + (w : ℚ) < Bi) →
        bmRelaxEdge false B Bi Bpi u v w st D K =
          (setV st v (st.dh u + (w : ℚ)) (st.pa u + 1) u, D, K)) := by
  refine ⟨rfl, ?_, ?_, ?_, ?_⟩
  · simp [bmRelaxEdge, hacc, HEURISTICS_ENABLED]
  · intro h
    simp [bmRelaxEdge, hacc, HEURISTICS_ENABLED, h]
  · intro h1 h2
    simp [bmRelaxEdge, hacc, HEURISTICS_ENABLED, h1, h2]
  · intro h1 h2
    simp [bmRelaxEdge, hacc, HEURISTICS_ENABLED, h1, h2]

theorem claimC4_amended_witness :
    (updateNeededBM (stC4.dh 0 + ((1 : ℚ) : ℚ)) (stC4.pa 0 + 1) 0 (stC4.dh 1)
      (stC4.pa 1) (predW stC4 1) = true)
    ∧ HEURISTICS_RELAX_INSERT = true := by
  refine ⟨by decide, ?_⟩
  exact (claimC4_amended ((20 : ℚ) : Dist) ((10 : ℚ) : Dist) ((0 : ℚ) : Dist)
    0 1 1 stC4 (DS.new 4 ((20 : ℚ) : Dist)) [] (by decide)).1

/-! ## Parameter values at `n = 5` (used by the concrete solver runs) -/

theorem logb25_lb : 2 < Real.logb 2 5 := by
  rw [Real.lt_logb_iff_rpow_lt (by norm_num) (by norm_num)]
  rw [show (2 : ℝ) = ((2 : ℕ) : ℝ) by norm_num, Real.rpow_natCast]
  norm_num

theorem logb25_ub : Real.logb 2 5 ≤ 5 / 2 := by
  rw [Real.logb_le_iff_le_rpow (by norm_num) (by norm_num)]
  have h2 : (0 : ℝ) ≤ 2 ^ ((5 : ℝ) / 2) := Real.rpow_nonneg (by norm_num) _
  have key : ((5 : ℝ)) ^ ((2 : ℕ) : ℝ) ≤ (2 ^ ((5 : ℝ) / 2)) ^ ((2 : ℕ) : ℝ) := by
    rw [← Real.rpow_mul (by norm_num : (0 : ℝ) ≤ 2)]
    rw [Real.rpow_natCast, show (5 : ℝ) / 2 * ((2 : ℕ) : ℝ) = ((5 : ℕ) : ℝ) by norm_num,
      Real.rpow_natCast]
    norm_num
  exact (Real.rpow_le_rpow_iff (by norm_num) h2 (by norm_num)).mp key

theorem logb25_pos : (1 : ℝ) ≤ Real.logb 2 5 :=
  le_of_lt (lt_trans one_lt_two logb25_lb)

/-- `(5/2) ^ e < 2` for the two fractional exponents used below. -/
theorem fiveHalves_rpow_lt_two (e : ℝ) (he : 0 < e) (hcube : (5 / 2 : ℝ) ^ (e * 3) < 8) :
    (5 / 2 : ℝ) ^ e < 2 := by
  have ha : (0 : ℝ) ≤ (5 / 2 : ℝ) ^ e := Real.rpow_nonneg (by norm_num) _
  have h8 : ((5 / 2 : ℝ) ^ e) ^ ((3 : ℕ) : ℝ) < (2 : ℝ) ^ ((3 : ℕ) : ℝ) := by
    rw [← Real.rpow_mul (by norm_num : (0 : ℝ) ≤ 5 / 2)]
    rw [show (e * ((3 : ℕ) : ℝ)) = e * 3 by norm_num]
    rw [Real.rpow_natCast 2]
    calc (5 / 2 : ℝ) ^ (e * 3) < 8 := hcube
      _ = (2 : ℝ) ^ (3 : ℕ) := by norm_num
  exact (Real.rpow_lt_rpow_iff ha (by norm_num) (by norm_num)).mp h8

theorem kParam_five : kParam 5 = 1 := by
  unfold kParam
  have hL0 : (0 : ℝ) ≤ Real.logb 2 5 := le_trans (by norm_num) logb25_pos
  have hlow : (1 : ℝ) ≤ Real.logb 2 5 ^ ((1 : ℝ) / 3) :=
    Real.one_le_rpow logb25_pos (by norm_num)
  have hup : Real.logb 2 5 ^ ((1 : ℝ) / 3) < 2 := by
    have h1 : Real.logb 2 5 ^ ((1 : ℝ) / 3) ≤ (5 / 2 : ℝ) ^ ((1 : ℝ) / 3) :=
      Real.rpow_le_rpow hL0 logb25_ub (by norm_num)
    have h2 : (5 / 2 : ℝ) ^ ((1 : ℝ) / 3) < 2 := by
      refine fiveHalves_rpow_lt_two _ (by norm_num) ?_
      rw [show ((1 : ℝ) / 3 * 3) = ((1 : ℕ) : ℝ) by norm_num, Real.rpow_natCast]
      norm_num
    exact lt_of_le_of_lt h1 h2
  have : Nat.floor (Real.logb 2 ((max 2 5 : ℕ) : ℝ) ^ ((1 : ℝ) / 3)) = 1 := by
    rw [show ((max 2 5 : ℕ) : ℝ) = (5 : ℝ) by norm_num]
    rw [Nat.floor_eq_iff (by positivity)]
    constructor
    · exact_mod_cast hlow
    · norm_num [hup]
  rw [this]
  decide

theorem tParam_five : tParam 5 = 1 := by
  unfold tParam
  have hL0 : (0 : ℝ) ≤ Real.logb 2 5 := le_trans (by norm_num) logb25_pos
  have hlow : (1 : ℝ) ≤ Real.logb 2 5 ^ ((2 : ℝ) / 3) :=
    Real.one_le_rpow logb25_pos (by norm_num)
  have hup : Real.logb 2 5 ^ ((2 : ℝ) / 3) < 2 := by
    have h1 : Real.logb 2 5 ^ ((2 : ℝ) / 3) ≤ (5 / 2 : ℝ) ^ ((2 : ℝ) / 3) :=
      Real.rpow_le_rpow hL0 logb25_ub (by norm_num)
    have h2 : (5 / 2 : ℝ) ^ ((2 : ℝ) / 3) < 2 := by
      refine fiveHalves_rpow_lt_two _ (by norm_num) ?_
      rw [show ((2 : ℝ) / 3 * 3) = ((2 : ℕ) : ℝ) by norm_num, Real.rpow_natCast]
      norm_num
    exact lt_of_le_of_lt h1 h2
  have : Nat.floor (Real.logb 2 ((max 2 5 : ℕ) : ℝ) ^ ((2 : ℝ) / 3)) = 1 := by
    rw [show ((max 2 5 : ℕ) : ℝ) = (5 : ℝ) by norm_num]
    rw [Nat.floor_eq_iff (by positivity)]
    constructor
    · exact_mod_cast hlow
    · norm_num [hup]
  rw [this]
  decide

theorem lmaxParam_five : lmaxParam 5 = 3 := by
  unfold lmaxParam
  rw [if_pos (by norm_num : (1 : ℕ) < max 2 5), tParam_five]
  rw [show ((max 2 5 : ℕ) : ℝ) = (5 : ℝ) by norm_num]
  rw [show ((1 : ℕ) : ℝ) = (1 : ℝ) by norm_num, div_one]
  rw [Nat.ceil_eq_iff (by norm_num)]
  refine ⟨?_, ?_⟩
  · norm_num [logb25_lb]
  · calc Real.logb 2 5 ≤ 5 / 2 := logb25_ub
      _ ≤ ((3 : ℕ) : ℝ) := by norm_num

/-! ## Claim C1: agreement of returned distances with Dijkstra -/

/-- Counterexample to claim C1: on the 5-vertex non-negative-weight graph
`esOver` with source 0 the solver returns distance 5 for vertex 2, while the
reference Dijkstra computes 4 — an error of 1, far beyond the tolerated
`1e-9`.  (The true shortest path is `0 →(2) 3 →(1) 4 →(0) 1 →(1) 2`.) -/
theorem claimC1_counterexample :
    (∀ e ∈ esOver, (0 : ℚ) ≤ e.2.2)
    ∧ (0 : ℕ) < 5
    ∧ lookupA (solve 5 7 esOver 0) 2 = some 5
    ∧ lookupA (dijkstra (buildGraph esOver) 5 0) 2 = some 4
    ∧ ¬ (|(5 : ℚ) - 4| ≤ eps9) := by
  unfold solve
  rw [kParam_five, tParam_five, lmaxParam_five]
  exact ⟨by decide, by decide, by decide, by decide, by decide⟩

/-! ## Claim C8: the relaxed-edge invariant at termination -/

/-- Counterexample to claim C8: on the 5-vertex non-negative-weight graph
`esEdge` with source 0 the solver returns vertex 1 with distance 3, the
graph has the edge `(1, 2, 3)`, yet vertex 2 ends with distance `∞` (it is
absent from the map), violating `distance(2) ≤ distance(1) + 3`. -/
theorem claimC8_counterexample :
    (∀ e ∈ esEdge, (0 : ℚ) ≤ e.2.2)
    ∧ lookupA (solve 5 7 esEdge 0) 1 = some 3
    ∧ (1, 2, (3 : ℚ)) ∈ esEdge
    ∧ lookupA (solve 5 7 esEdge 0) 2 = none
    ∧ (solveCore 5 esEdge 0 1 1 3).2.dh 2 = ⊤
    ∧ ¬ ((⊤ : Dist) ≤ ((3 : ℚ) : Dist) + (3 : ℚ)) := by
  unfold solve
  rw [kParam_five, tParam_five, lmaxParam_five]
  exact ⟨by decide, by decide, by decide, by decide, by decide, by decide⟩

theorem claimC9_amended_witness :
    2 ≤ 4
    ∧ (kParam 4 = max 1 (Nat.floor ((Real.logb 2 (4 : ℝ)) ^ ((1 : ℝ) / 3)))
      ∧ tParam 4 = max 1 (Nat.floor ((Real.logb 2 (4 : ℝ)) ^ ((2 : ℝ) / 3)))
      ∧ lmaxParam 4 = Nat.ceil ((Real.logb 2 (4 : ℝ)) / (tParam 4 : ℝ))
      ∧ (∀ l t : ℕ, mCapacity (l + 1) t = max 64 (2 ^ (l * t)))) :=
  ⟨by norm_num, claimC9_amended 4 (by norm_num)⟩

/-! ## Claim C2: the `Pull` boundary contract

Structural lemmas about the bucket operations, the invariant of reachable
states, and the boundary properties of `Pull`. -/

theorem mem_map_fst_dsAddToBucket (bks : List (Dist × List DSEntry))
    (value : Dist) (e : DSEntry) (a : Dist) :
    a ∈ (dsAddToBucket bks value e).map Prod.fst ↔
      a = value ∨ a ∈ bks.map Prod.fst := by
  induction bks with
  | nil => simp [dsAddToBucket]
  | cons b rest ih =>
    obtain ⟨v, es⟩ := b
    by_cases h1 : value = v
    · simp [dsAddToBucket, if_pos h1, h1]
    · by_cases h2 : value < v
      · simp [dsAddToBucket, h1, h2]
      · simp only [dsAddToBucket, if_neg h1, if_neg h2, List.map_cons, List.mem_cons, ih]
        tauto

theorem sorted_dsAddToBucket (bks : List (Dist × List DSEntry)) (value : Dist)
    (e : DSEntry) (h : (bks.map Prod.fst).Sorted (· < ·)) :
    ((dsAddToBucket bks value e).map Prod.fst).Sorted (· < ·) := by
  induction bks with
  | nil => simp [dsAddToBucket]
  | cons b rest ih =>
    obtain ⟨v, es⟩ := b
    simp only [List.map_cons, List.sorted_cons] at h
    obtain ⟨hv, hrest⟩ := h
    by_cases h1 : value = v
    · simp only [dsAddToBucket, if_pos h1, List.map_cons, List.sorted_cons]
      exact ⟨hv, hrest⟩
    · by_cases h2 : value < v
      · simp only [dsAddToBucket, if_neg h1, if_pos h2, List.map_cons, List.sorted_cons]
        refine ⟨?_, ?_, hrest⟩
        · intro x hx
          rcases List.mem_cons.mp hx with rfl | hx'
          · exact h2
          · exact lt_trans h2 (hv x hx')
        · exact hv
      · have h3 : v < value := by
          rcases lt_trichotomy value v with hlt | heq | hgt
          · exact absurd hlt h2
          · exact absurd heq h1
          · exact hgt
        simp only [dsAddToBucket, if_neg h1, if_neg h2, List.map_cons, List.sorted_cons]
        refine ⟨?_, ih hrest⟩
        intro x hx
        rcases (mem_map_fst_dsAddToBucket rest value e x).mp hx with rfl | hx'
        · exact h3
        · exact hv x hx'

theorem keysOf_dsAddToBucket_perm (bks : List (Dist × List DSEntry))
    (value : Dist) (e : DSEntry) :
    List.Perm (keysOf (dsAddToBucket bks value e)) (e.key :: keysOf bks) := by
  induction bks with
  | nil => simp [dsAddToBucket, keysOf]
  | cons b rest ih =>
    obtain ⟨v, es⟩ := b
    by_cases h1 : value = v
    · simp only [dsAddToBucket, if_pos h1, keysOf, List.map_cons, List.flatten_cons,
        List.map_append, List.map_cons, List.map_nil]
      have step1 :
          (es.map DSEntry.key ++ [e.key]) ++ (rest.map (fun b => b.2.map DSEntry.key)).flatten
            = es.map DSEntry.key ++
                e.key :: (rest.map (fun b => b.2.map DSEntry.key)).flatten := by
        simp
      rw [step1]
      exact List.perm_middle
    · by_cases h2 : value < v
      · simp [dsAddToBucket, h1, h2, keysOf]
      · simp only [dsAddToBucket, if_neg h1, if_neg h2, keysOf, List.map_cons,
          List.flatten_cons]
        refine List.Perm.trans (List.Perm.append_left _ ?_) List.perm_middle
        exact ih

theorem nonempty_dsAddToBucket (bks : List (Dist × List DSEntry)) (value : Dist)
    (e : DSEntry) (h : ∀ b ∈ bks, b.2 ≠ []) :
    ∀ b ∈ dsAddToBucket bks value e, b.2 ≠ [] := by
  induction bks with
  | nil => simp [dsAddToBucket]
  | cons b rest ih =>
    obtain ⟨v, es⟩ := b
    intro c hc
    by_cases h1 : value = v
    · simp only [dsAddToBucket, if_pos h1] at hc
      rcases List.mem_cons.mp hc with rfl | hc'
      · simp
      · exact h c (List.mem_cons_of_mem _ hc')
    · by_cases h2 : value < v
      · simp only [dsAddToBucket, if_neg h1, if_pos h2] at hc
        rcases List.mem_cons.mp hc with rfl | hc'
        · simp
        · exact h c hc'
      · simp only [dsAddToBucket, if_neg h1, if_neg h2] at hc
        rcases List.mem_cons.mp hc with rfl | hc'
        · exact h (v, es) (List.mem_cons_self _ _)
        · exact ih (fun b hb => h b (List.mem_cons_of_mem _ hb)) c hc'

theorem fst_ne_top_dsAddToBucket (bks : List (Dist × List DSEntry)) (value : Dist)
    (e : DSEntry) (hval : value ≠ (⊤ : Dist)) (h : ∀ b ∈ bks, b.1 ≠ (⊤ : Dist)) :
    ∀ b ∈ dsAddToBucket bks value e, b.1 ≠ (⊤ : Dist) := by
  intro b hb
  have hm : b.1 ∈ (dsAddToBucket bks value e).map Prod.fst := List.mem_map_of_mem _ hb
  rcases (mem_map_fst_dsAddToBucket bks value e b.1).mp hm with heq | hmem
  · rw [heq]; exact hval
  · obtain ⟨c, hc, hc1⟩ := List.mem_map.mp hmem
    rw [← hc1]; exact h c hc

theorem map_fst_dsRemoveKey_sublist (bks : List (Dist × List DSEntry)) (key : ℕ) :
    List.Sublist ((dsRemoveKey bks key).map Prod.fst) (bks.map Prod.fst) := by
  induction bks with
  | nil => simp [dsRemoveKey]
  | cons b rest ih =>
    obtain ⟨v, es⟩ := b
    by_cases h1 : es.any (fun e => e.key = key)
    · by_cases h2 : es.filter (fun e => e.key ≠ key) = []
      · rw [dsRemoveKey, if_pos h1, if_pos h2, List.map_cons]
        exact (List.Sublist.refl _).cons _

      · simp only [dsRemoveKey, if_pos h1, if_neg h2, List.map_cons]
        exact (List.Sublist.refl _).cons₂ _
    · rw [dsRemoveKey, if_neg h1, List.map_cons, List.map_cons]
      exact ih.cons₂ _

theorem keysOf_dsRemoveKey_sublist (bks : List (Dist × List DSEntry)) (key : ℕ) :
    List.Sublist (keysOf (dsRemoveKey bks key)) (keysOf bks) := by
  induction bks with
  | nil => simp [dsRemoveKey, keysOf]
  | cons b rest ih =>
    obtain ⟨v, es⟩ := b
    by_cases h1 : es.any (fun e => e.key = key)
    · by_cases h2 : es.filter (fun e => e.key ≠ key) = []
      · rw [dsRemoveKey, if_pos h1, if_pos h2]
        show List.Sublist (keysOf rest)
          (es.map DSEntry.key ++ (rest.map (fun b => b.2.map DSEntry.key)).flatten)
        exact List.sublist_append_right _ _
      · rw [dsRemoveKey, if_pos h1, if_neg h2]
        show List.Sublist
          ((es.filter (fun e => e.key ≠ key)).map DSEntry.key ++ keysOf rest)
          (es.map DSEntry.key ++ keysOf rest)
        exact List.Sublist.append (List.Sublist.map DSEntry.key (List.filter_sublist es))
          (List.Sublist.refl _)
    · rw [dsRemoveKey, if_neg h1]
      show List.Sublist (es.map DSEntry.key ++ keysOf (dsRemoveKey rest key))
        (es.map DSEntry.key ++ keysOf rest)
      exact List.Sublist.append (List.Sublist.refl _) ih

theorem nonempty_dsRemoveKey (bks : List (Dist × List DSEntry)) (key : ℕ)
    (h : ∀ b ∈ bks, b.2 ≠ []) :
    ∀ b ∈ dsRemoveKey bks key, b.2 ≠ [] := by
  induction bks with
  | nil => simp [dsRemoveKey]
  | cons b rest ih =>
    obtain ⟨v, es⟩ := b
    intro c hc
    by_cases h1 : es.any (fun e => e.key = key)
    · by_cases h2 : es.filter (fun e => e.key ≠ key) = []
      · rw [dsRemoveKey, if_pos h1, if_pos h2] at hc
        exact h c (List.mem_cons_of_mem _ hc)
      · rw [dsRemoveKey, if_pos h1, if_neg h2] at hc
        rcases List.mem_cons.mp hc with rfl | hc'
        · exact h2
        · exact h c (List.mem_cons_of_mem _ hc')
    · rw [dsRemoveKey, if_neg h1] at hc
      rcases List.mem_cons.mp hc with rfl | hc'
      · exact h (v, es) (List.mem_cons_self _ _)
      · exact ih (fun b hb => h b (List.mem_cons_of_mem _ hb)) c hc'

theorem fst_ne_top_dsRemoveKey (bks : List (Dist × List DSEntry)) (key : ℕ)
    (h : ∀ b ∈ bks, b.1 ≠ (⊤ : Dist)) :
    ∀ b ∈ dsRemoveKey bks key, b.1 ≠ (⊤ : Dist) := by
  intro b hb
  have hm : b.1 ∈ (dsRemoveKey bks key).map Prod.fst := List.mem_map_of_mem _ hb
  have hm2 : b.1 ∈ bks.map Prod.fst := (map_fst_dsRemoveKey_sublist bks key).mem hm
  obtain ⟨c, hc, hc1⟩ := List.mem_map.mp hm2
  rw [← hc1]; exact h c hc

theorem not_mem_keysOf_dsRemoveKey (bks : List (Dist × List DSEntry)) (key : ℕ)
    (hnd : (keysOf bks).Nodup) :
    key ∉ keysOf (dsRemoveKey bks key) := by
  induction bks with
  | nil => simp [dsRemoveKey, keysOf]
  | cons b rest ih =>
    obtain ⟨v, es⟩ := b
    have hsplit : keysOf ((v, es) :: rest) = es.map DSEntry.key ++ keysOf rest := rfl
    rw [hsplit, List.nodup_append] at hnd
    obtain ⟨hnd1, hnd2, hdisj⟩ := hnd
    by_cases h1 : es.any (fun e => e.key = key)
    · have hkey : key ∈ es.map DSEntry.key := by
        rw [List.any_eq_true] at h1
        obtain ⟨e, he, hek⟩ := h1
        exact List.mem_map.mpr ⟨e, he, by simpa using hek⟩
      by_cases h2 : es.filter (fun e => e.key ≠ key) = []
      · rw [dsRemoveKey, if_pos h1, if_pos h2]
        exact fun hmem => hdisj hkey hmem
      · rw [dsRemoveKey, if_pos h1, if_neg h2]
        show key ∉ (es.filter (fun e => e.key ≠ key)).map DSEntry.key ++ keysOf rest
        intro hmem
        rcases List.mem_append.mp hmem with hmem1 | hmem2
        · obtain ⟨e, he, hek⟩ := List.mem_map.mp hmem1
          have := List.of_mem_filter he
          simp [hek] at this
        · exact hdisj hkey hmem2
    · rw [dsRemoveKey, if_neg h1]
      show key ∉ es.map DSEntry.key ++ keysOf (dsRemoveKey rest key)
      intro hmem
      rcases List.mem_append.mp hmem with hmem1 | hmem2
      · obtain ⟨e, he, hek⟩ := List.mem_map.mp hmem1
        rw [List.any_eq_true] at h1
        push_neg at h1
        exact h1 e he (by simpa using hek)
      · exact ih hnd2 hmem2

theorem dsFindKey_eq_none (bks : List (Dist × List DSEntry)) (key : ℕ) :
    dsFindKey bks key = none ↔ key ∉ keysOf bks := by
  induction bks with
  | nil => simp [dsFindKey, keysOf]
  | cons b rest ih =>
    obtain ⟨v, es⟩ := b
    have hsplit : keysOf ((v, es) :: rest) = es.map DSEntry.key ++ keysOf rest := rfl
    rw [hsplit]
    cases hf : es.find? (fun e => e.key = key) with
    | some e =>
      rw [dsFindKey, hf]
      have he := List.find?_some hf
      have hem := List.mem_of_find?_eq_some hf
      simp only [decide_eq_true_eq] at he
      constructor
      · intro h; cases h
      · intro h
        exact absurd (List.mem_append.mpr (Or.inl (List.mem_map.mpr ⟨e, hem, he⟩))) h
    | none =>
      rw [dsFindKey, hf, ih]
      have hno : key ∉ es.map DSEntry.key := by
        intro hm
        obtain ⟨e, he, hek⟩ := List.mem_map.mp hm
        have := List.find?_eq_none.mp hf e he
        simp [hek] at this
      constructor
      · intro h hm
        rcases List.mem_append.mp hm with h1 | h2
        · exact hno h1
        · exact h h2
      · intro h hm
        exact h (List.mem_append.mpr (Or.inr hm))

theorem DSInv_new (M : ℕ) (B : Dist) : DSInv (DS.new M B) := by
  refine ⟨?_, ?_, ?_, ?_, ?_⟩ <;> simp [DS.new, DS.keys, keysOf]

theorem DSInv_insert (d : DS) (key : ℕ) (q : ℚ) (alpha : Alpha) (pv : WithTop ℤ)
    (h : DSInv d) : DSInv (d.Insert key ((q : ℚ) : Dist) alpha pv) := by
  obtain ⟨hs, hne, htop, hnd, hM⟩ := h
  have hndk : (keysOf d.buckets).Nodup := hnd
  rw [DS.Insert]
  cases hf : dsFindKey d.buckets key with
  | none =>
    have hfresh : key ∉ keysOf d.buckets := (dsFindKey_eq_none _ _).mp hf
    refine ⟨?_, ?_, ?_, ?_, hM⟩
    · exact sorted_dsAddToBucket _ _ _ hs
    · exact nonempty_dsAddToBucket _ _ _ hne
    · exact fst_ne_top_dsAddToBucket _ _ _ (WithTop.coe_ne_top) htop
    · show (keysOf (dsAddToBucket d.buckets _ _)).Nodup
      rw [(keysOf_dsAddToBucket_perm d.buckets _ _).nodup_iff]
      exact List.nodup_cons.mpr ⟨hfresh, hndk⟩
  | some triple =>
    obtain ⟨oldv, olda, oldp⟩ := triple
    by_cases h1 : oldv < ((q : ℚ) : Dist)
    · simpa [h1] using ⟨hs, hne, htop, hnd, hM⟩
    · by_cases h2 : ((q : ℚ) : Dist) = oldv ∧ (olda < alpha ∨ (alpha = olda ∧ oldp ≤ pv))
      · simpa [h1, h2] using ⟨hs, hne, htop, hnd, hM⟩
      · simp only [if_neg h1, if_neg h2]
        have hrs : ((dsRemoveKey d.buckets key).map Prod.fst).Sorted (· < ·) :=
          hs.sublist (map_fst_dsRemoveKey_sublist _ _)
        have hrnd : (keysOf (dsRemoveKey d.buckets key)).Nodup :=
          hndk.sublist (keysOf_dsRemoveKey_sublist _ _)
        have hfresh : key ∉ keysOf (dsRemoveKey d.buckets key) :=
          not_mem_keysOf_dsRemoveKey _ _ hndk
        refine ⟨?_, ?_, ?_, ?_, hM⟩
        · exact sorted_dsAddToBucket _ _ _ hrs
        · exact nonempty_dsAddToBucket _ _ _ (nonempty_dsRemoveKey _ _ hne)
        · exact fst_ne_top_dsAddToBucket _ _ _ (WithTop.coe_ne_top)
            (fst_ne_top_dsRemoveKey _ _ htop)
        · show (keysOf (dsAddToBucket (dsRemoveKey d.buckets key) _ _)).Nodup
          rw [(keysOf_dsAddToBucket_perm _ _ _).nodup_iff]
          exact List.nodup_cons.mpr ⟨hfresh, hrnd⟩

theorem DSInv_batch (items : List BItem) (hfin : ∀ it ∈ items, it.2.1 ≠ (⊤ : Dist)) :
    ∀ d : DS, DSInv d → DSInv (d.BatchPrepend items) := by
  induction items with
  | nil => intro d h; exact h
  | cons it rest ih =>
    intro d h
    have hit : it.2.1 ≠ (⊤ : Dist) := hfin it (List.mem_cons_self _ _)
    obtain ⟨q, hq⟩ := Option.ne_none_iff_exists.mp hit
    show DSInv ((d.Insert it.1 it.2.1 it.2.2.1 it.2.2.2).BatchPrepend rest)
    refine ih (fun x hx => hfin x (List.mem_cons_of_mem _ hx)) _ ?_
    rw [← hq]
    exact DSInv_insert d it.1 q it.2.2.1 it.2.2.2 h

theorem DSReach_inv {d : DS} (h : DSReach d) : DSInv d := by
  induction h with
  | init M B => exact DSInv_new M B
  | ins key q alpha pv _ ih => exact DSInv_insert _ key q alpha pv ih
  | batch items hfin _ ih => exact DSInv_batch items hfin _ ih

/-! Properties of the pulling loop. -/

theorem pullGo_keys (m : ℕ) (bks : List (Dist × List DSEntry)) :
    (dsPullGo m bks).1.map Prod.fst ++ keysOf (dsPullGo m bks).2 = keysOf bks := by
  induction bks generalizing m with
  | nil => simp [dsPullGo, keysOf]
  | cons b rest ih =>
    obtain ⟨v, es⟩ := b
    by_cases h0 : m = 0
    · simp [dsPullGo, h0]
    · by_cases h1 : es.length ≤ m
      · simp only [dsPullGo, if_neg h0, if_pos h1]
        show ((es.map (fun e => (e.key, v)) ++ (dsPullGo (m - es.length) rest).1).map Prod.fst)
            ++ keysOf (dsPullGo (m - es.length) rest).2
          = es.map DSEntry.key ++ keysOf rest
        rw [List.map_append, List.append_assoc, ih]
        congr 1
        simp [Function.comp]
      · simp only [dsPullGo, if_neg h0, if_neg h1]
        show ((es.take m).map (fun e => (e.key, v))).map Prod.fst
            ++ ((es.drop m).map DSEntry.key ++ keysOf rest)
          = es.map DSEntry.key ++ keysOf rest
        rw [← List.append_assoc]
        congr 1
        rw [List.map_map]
        show (es.take m).map DSEntry.key ++ (es.drop m).map DSEntry.key
          = es.map DSEntry.key
        rw [← List.map_append, List.take_append_drop]

theorem pullGo_length (m : ℕ) (bks : List (Dist × List DSEntry)) :
    (dsPullGo m bks).1.length ≤ m := by
  induction bks generalizing m with
  | nil => simp [dsPullGo]
  | cons b rest ih =>
    obtain ⟨v, es⟩ := b
    by_cases h0 : m = 0
    · simp [dsPullGo, h0]
    · by_cases h1 : es.length ≤ m
      · simp only [dsPullGo, if_neg h0, if_pos h1]
        have := ih (m - es.length)
        simp only [List.length_append, List.length_map]
        omega
      · simp only [dsPullGo, if_neg h0, if_neg h1]
        simp

theorem pullGo_rem_suffix (m : ℕ) (bks : List (Dist × List DSEntry)) :
    List.IsSuffix ((dsPullGo m bks).2.map Prod.fst) (bks.map Prod.fst) := by
  induction bks generalizing m with
  | nil => simp [dsPullGo]
  | cons b rest ih =>
    obtain ⟨v, es⟩ := b
    by_cases h0 : m = 0
    · simp [dsPullGo, h0]
    · by_cases h1 : es.length ≤ m
      · simp only [dsPullGo, if_neg h0, if_pos h1]
        exact (ih (m - es.length)).trans (List.suffix_cons _ _)
      · simp only [dsPullGo, if_neg h0, if_neg h1, List.map_cons]
        exact List.suffix_refl _

theorem pullGo_pulled_le (m : ℕ) (bks : List (Dist × List DSEntry))
    (hs : (bks.map Prod.fst).Sorted (· < ·)) :
    ∀ kv ∈ (dsPullGo m bks).1, ∀ b ∈ (dsPullGo m bks).2, kv.2 ≤ b.1 := by
  induction bks generalizing m with
  | nil => simp [dsPullGo]
  | cons bb rest ih =>
    obtain ⟨v, es⟩ := bb
    simp only [List.map_cons, List.sorted_cons] at hs
    obtain ⟨hv, hrest⟩ := hs
    by_cases h0 : m = 0
    · simp [dsPullGo, h0]
    · by_cases h1 : es.length ≤ m
      · simp only [dsPullGo, if_neg h0, if_pos h1]
        intro kv hkv b hb
        rcases List.mem_append.mp hkv with hkv1 | hkv2
        · obtain ⟨e, _, he2⟩ := List.mem_map.mp hkv1
          have hb1 : b.1 ∈ ((dsPullGo (m - es.length) rest).2.map Prod.fst) :=
            List.mem_map_of_mem _ hb
          have hb2 : b.1 ∈ rest.map Prod.fst :=
            (pullGo_rem_suffix (m - es.length) rest).sublist.mem hb1
          rw [← he2]
          exact le_of_lt (hv b.1 hb2)
        · exact ih (m - es.length) hrest kv hkv2 b hb
      · simp only [dsPullGo, if_neg h0, if_neg h1]
        intro kv hkv b hb
        obtain ⟨e, _, he2⟩ := List.mem_map.mp hkv
        rw [← he2]
        rcases List.mem_cons.mp hb with rfl | hb'
        · exact le_refl _
        · exact le_of_lt (hv b.1 (List.mem_map_of_mem _ hb'))

theorem pullGo_pulled_mem_values (m : ℕ) (bks : List (Dist × List DSEntry)) :
    ∀ kv ∈ (dsPullGo m bks).1, kv.2 ∈ bks.map Prod.fst := by
  induction bks generalizing m with
  | nil => simp [dsPullGo]
  | cons bb rest ih =>
    obtain ⟨v, es⟩ := bb
    by_cases h0 : m = 0
    · simp [dsPullGo, h0]
    · by_cases h1 : es.length ≤ m
      · simp only [dsPullGo, if_neg h0, if_pos h1]
        intro kv hkv
        rcases List.mem_append.mp hkv with hkv1 | hkv2
        · obtain ⟨e, _, he2⟩ := List.mem_map.mp hkv1
          rw [← he2]
          simp
        · exact List.mem_cons_of_mem _ (ih (m - es.length) kv hkv2)
      · simp only [dsPullGo, if_neg h0, if_neg h1]
        intro kv hkv
        obtain ⟨e, _, he2⟩ := List.mem_map.mp hkv
        rw [← he2]
        simp

theorem pullGo_ne_nil (m : ℕ) (v : Dist) (es : List DSEntry)
    (rest : List (Dist × List DSEntry)) (hm : 1 ≤ m) (hes : es ≠ []) :
    (dsPullGo m ((v, es) :: rest)).1 ≠ [] := by
  have h0 : ¬ m = 0 := by omega
  by_cases h1 : es.length ≤ m
  · simp only [dsPullGo, if_neg h0, if_pos h1]
    intro hcontra
    rcases List.append_eq_nil.mp hcontra with ⟨hmap, -⟩
    exact hes (List.map_eq_nil.mp hmap)
  · simp only [dsPullGo, if_neg h0, if_neg h1]
    intro hcontra
    have : (es.take m) = [] := List.map_eq_nil.mp hcontra
    have hlen := congrArg List.length this
    simp only [List.length_take, List.length_nil] at hlen
    omega

theorem le_maxPulled (l : List Dist) : ∀ a ∈ l, a ≤ maxPulled l := by
  cases l with
  | nil => simp
  | cons h t =>
    show ∀ a ∈ h :: t, a ≤ t.foldl max h
    have aux : ∀ (t' : List Dist) (acc : Dist),
        acc ≤ t'.foldl max acc ∧ ∀ a ∈ t', a ≤ t'.foldl max acc := by
      intro t'
      induction t' with
      | nil => intro acc; exact ⟨le_refl _, by simp⟩
      | cons x xs ihx =>
        intro acc
        obtain ⟨ih1, ih2⟩ := ihx (max acc x)
        refine ⟨le_trans (le_max_left _ _) ih1, ?_⟩
        intro a ha
        rcases List.mem_cons.mp ha with rfl | ha'
        · exact le_trans (le_max_right _ _) ih1
        · exact ih2 a ha'
    intro a ha
    rcases List.mem_cons.mp ha with rfl | ha'
    · exact (aux t a).1
    · exact (aux t h).2 a ha'

theorem maxPulled_mem (l : List Dist) (h : l ≠ []) : maxPulled l ∈ l := by
  cases l with
  | nil => exact absurd rfl h
  | cons x t =>
    show t.foldl max x ∈ x :: t
    have aux : ∀ (t' : List Dist) (acc : Dist),
        t'.foldl max acc = acc ∨ t'.foldl max acc ∈ t' := by
      intro t'
      induction t' with
      | nil => intro acc; exact Or.inl rfl
      | cons y ys ihy =>
        intro acc
        rcases ihy (max acc y) with h1 | h1
        · rcases max_choice acc y with h2 | h2
          · exact Or.inl (h1.trans h2)
          · refine Or.inr ?_
            rw [List.foldl_cons, h1, h2]
            exact List.mem_cons_self y ys
        · exact Or.inr (List.mem_cons_of_mem _ h1)
    rcases aux t x with h1 | h1
    · rw [h1]; exact List.mem_cons_self _ _
    · exact List.mem_cons_of_mem _ h1

theorem Pull_snd (d : DS) : d.Pull.2.1 = (dsPullGo d.M d.buckets).1 := rfl

theorem Pull_buckets (d : DS) : d.Pull.2.2.buckets = (dsPullGo d.M d.buckets).2 := rfl

theorem Pull_x_cons (d : DS) (v : Dist) (es : List DSEntry)
    (rest : List (Dist × List DSEntry))
    (h : (dsPullGo d.M d.buckets).2 = (v, es) :: rest) : d.Pull.1 = v := by
  unfold DS.Pull
  simp only [h]

theorem Pull_x_none_cons (d : DS) (kv : ℕ × Dist) (rest : List (ℕ × Dist))
    (h2 : (dsPullGo d.M d.buckets).2 = [])
    (h1 : (dsPullGo d.M d.buckets).1 = kv :: rest) :
    d.Pull.1 = maxPulled ((kv :: rest).map Prod.snd) + ((eps12 : ℚ) : Dist) := by
  unfold DS.Pull
  simp only [h2, h1]

theorem Pull_x_nil_nil (d : DS)
    (h2 : (dsPullGo d.M d.buckets).2 = [])
    (h1 : (dsPullGo d.M d.buckets).1 = []) : d.Pull.1 = d.B := by
  unfold DS.Pull
  simp only [h2, h1]

/-- Claim C2: for every frontier state reachable by `Insert` and
`BatchPrepend` calls, a single `Pull` returns a boundary `x` and at most `M`
distinct keys; every pulled key's stored value is `≤ x`, every remaining
bucket's value (hence every remaining key's value) is `≥ x`; if the
structure was fully emptied and something was pulled, `x` lies strictly
above every pulled value; and if nothing was pulled `x` is the configured
bound `B`. -/
theorem claimC2 (d : DS) (hreach : DSReach d) :
    d.Pull.2.1.length ≤ d.M
    ∧ (d.Pull.2.1.map Prod.fst).Nodup
    ∧ (∀ kv ∈ d.Pull.2.1, kv.2 ≤ d.Pull.1)
    ∧ (∀ b ∈ d.Pull.2.2.buckets, d.Pull.1 ≤ b.1)
    ∧ (d.Pull.2.2.isEmpty = true → d.Pull.2.1 ≠ [] →
        ∀ kv ∈ d.Pull.2.1, kv.2 < d.Pull.1)
    ∧ (d.Pull.2.1 = [] → d.Pull.1 = d.B) := by
  obtain ⟨hs, hne, htop, hnd, hM⟩ := DSReach_inv hreach
  have hkeys := pullGo_keys d.M d.buckets
  have hlen := pullGo_length d.M d.buckets
  have hsuf := pullGo_rem_suffix d.M d.buckets
  have hle := pullGo_pulled_le d.M d.buckets hs
  have hmemv := pullGo_pulled_mem_values d.M d.buckets
  have hndk : (keysOf d.buckets).Nodup := hnd
  have hpullednd : ((dsPullGo d.M d.buckets).1.map Prod.fst).Nodup := by
    have : List.Sublist ((dsPullGo d.M d.buckets).1.map Prod.fst) (keysOf d.buckets) := by
      rw [← hkeys]
      exact List.sublist_append_left _ _
    exact hndk.sublist this
  have hremsorted : ((dsPullGo d.M d.buckets).2.map Prod.fst).Sorted (· < ·) :=
    hs.sublist hsuf.sublist
  have heps : (0 : Dist) ≤ ((eps12 : ℚ) : Dist) := by
    rw [show (0 : Dist) = ((0 : ℚ) : Dist) from rfl, WithTop.coe_le_coe]
    norm_num [eps12]
  simp only [Pull_snd, Pull_buckets, DS.isEmpty, decide_eq_true_eq]
  refine ⟨hlen, hpullednd, ?_, ?_, ?_, ?_⟩
  · -- every pulled value ≤ x
    intro kv hkv
    rcases hrem : (dsPullGo d.M d.buckets).2 with _ | ⟨⟨v, es⟩, rrest⟩
    · -- structure emptied: x depends on pulled values
      rcases hpul : (dsPullGo d.M d.buckets).1 with _ | ⟨kv0, prest⟩
      · rw [hpul] at hkv
        exact absurd hkv (List.not_mem_nil kv)
      · rw [Pull_x_none_cons d kv0 prest hrem hpul]
        rw [hpul] at hkv
        have h1 : kv.2 ≤ maxPulled ((kv0 :: prest).map Prod.snd) :=
          le_maxPulled _ _ (List.mem_map_of_mem _ hkv)
        exact le_trans h1 (le_add_of_nonneg_right heps)
    · rw [Pull_x_cons d v es rrest hrem]
      exact hle kv hkv (v, es) (by rw [hrem]; exact List.mem_cons_self _ _)
  · -- every remaining value ≥ x
    intro b hb
    rcases hrem : (dsPullGo d.M d.buckets).2 with _ | ⟨⟨v, es⟩, rrest⟩
    · rw [hrem] at hb
      exact absurd hb (List.not_mem_nil b)
    · rw [Pull_x_cons d v es rrest hrem]
      rw [hrem] at hb hremsorted
      simp only [List.map_cons, List.sorted_cons] at hremsorted
      rcases List.mem_cons.mp hb with rfl | hb'
      · exact le_refl v
      · exact le_of_lt (hremsorted.1 b.1 (List.mem_map_of_mem _ hb'))
  · -- emptied with at least one pull: strictly above every pulled value
    intro hrem hpulne kv hkv
    rcases hpul : (dsPullGo d.M d.buckets).1 with _ | ⟨kv0, prest⟩
    · exact absurd hpul hpulne
    · rw [Pull_x_none_cons d kv0 prest hrem hpul]
      rw [hpul] at hkv
      have h1 : kv.2 ≤ maxPulled ((kv0 :: prest).map Prod.snd) :=
        le_maxPulled _ _ (List.mem_map_of_mem _ hkv)
      have h2 : maxPulled ((kv0 :: prest).map Prod.snd) ≠ (⊤ : Dist) := by
        have hmm := maxPulled_mem ((kv0 :: prest).map Prod.snd) (by simp)
        obtain ⟨kv1, hkv1, hkv1e⟩ := List.mem_map.mp hmm
        have hkv1' : kv1 ∈ (dsPullGo d.M d.buckets).1 := by
          rw [hpul]; exact hkv1
        obtain ⟨b1, hb1, hb1e⟩ := List.mem_map.mp (hmemv kv1 hkv1')
        rw [← hkv1e, ← hb1e]
        exact htop b1 hb1
      obtain ⟨qm, hqm⟩ := Option.ne_none_iff_exists.mp h2
      refine lt_of_le_of_lt h1 ?_
      rw [← hqm]
      show ((qm : ℚ) : Dist) < ((qm : ℚ) : Dist) + ((eps12 : ℚ) : Dist)
      rw [← WithTop.coe_add, WithTop.coe_lt_coe]
      have : (0 : ℚ) < eps12 := by norm_num [eps12]
      linarith
  · -- nothing pulled: x = B
    intro hpul
    have hbks : d.buckets = [] := by
      rcases hb : d.buckets with _ | ⟨⟨v, es⟩, rest⟩
      · rfl
      · exfalso
        have hesne : es ≠ [] :=
          hne (v, es) (by rw [hb]; exact List.mem_cons_self _ _)
        have := pullGo_ne_nil d.M v es rest hM hesne
        rw [← hb] at this
        exact this hpul
    have hrem : (dsPullGo d.M d.buckets).2 = [] := by rw [hbks]; rfl
    exact Pull_x_nil_nil d hrem hpul

theorem claimC2_witness :
    DSReach (((DS.new 2 ((9 : ℚ) : Dist)).Insert 1 ((3 : ℚ) : ℚ) 0 ⊤).Insert 2
      ((1 : ℚ) : ℚ) 0 ⊤)
    ∧ ((((DS.new 2 ((9 : ℚ) : Dist)).Insert 1 ((3 : ℚ) : ℚ) 0 ⊤).Insert 2
        ((1 : ℚ) : ℚ) 0 ⊤).Pull.2.1.length ≤
      (((DS.new 2 ((9 : ℚ) : Dist)).Insert 1 ((3 : ℚ) : ℚ) 0 ⊤).Insert 2
        ((1 : ℚ) : ℚ) 0 ⊤).M) := by
  have hreach : DSReach (((DS.new 2 ((9 : ℚ) : Dist)).Insert 1 ((3 : ℚ) : ℚ) 0 ⊤).Insert 2
      ((1 : ℚ) : ℚ) 0 ⊤) :=
    DSReach.ins 2 1 0 ⊤ (DSReach.ins 1 3 0 ⊤ (DSReach.init 2 ((9 : ℚ) : Dist)))
  exact ⟨hreach, (claimC2 _ hreach).1⟩

/-! ## Claim C6: FindPivots' early exit and pivot selection -/

theorem fpIter_succ_left (g : Graph) (B : Dist) (s : FPState) (i : ℕ) :
    fpIter g B s (i + 1) = fpIter g B (fpRound g B s) i := by
  induction i with
  | zero => rfl
  | succ n ih =>
    show fpRound g B (fpIter g B s (n + 1)) = fpRound g B (fpIter g B (fpRound g B s) n)
    rw [ih]

theorem fpRounds_eq_iter (g : Graph) (B : Dist) (k : ℕ) (S : List ℕ) :
    ∀ (r : ℕ) (s : FPState),
    fpRounds g B k S r s =
      match (List.range r).find?
          (fun i => decide (k * S.length < (fpIter g B s (i + 1)).W.length)) with
      | some i => (fpIter g B s (i + 1), true)
      | none => (fpIter g B s r, false) := by
  intro r
  induction r with
  | zero => intro s; rfl
  | succ r ih =>
    intro s
    show (if k * S.length < (fpRound g B s).W.length then (fpRound g B s, true)
        else fpRounds g B k S r (fpRound g B s)) = _
    rw [List.range_succ_eq_map, List.find?_cons]
    by_cases h : k * S.length < (fpIter g B s 1).W.length
    · rw [if_pos (show k * S.length < (fpRound g B s).W.length from h)]
      simp only [decide_eq_true_eq, h, decide_True]
      rfl
    · rw [if_neg (show ¬ k * S.length < (fpRound g B s).W.length from h)]
      have hd : (decide (k * S.length < (fpIter g B s (0 + 1)).W.length)) = false := by
        simpa using h
      rw [hd]
      rw [List.find?_map]
      have hp : ((fun i => decide (k * S.length < (fpIter g B s (i + 1)).W.length))
            ∘ (· + 1))
          = (fun i => decide (k * S.length <
              (fpIter g B (fpRound g B s) (i + 1)).W.length)) := by
        funext i
        show decide (k * S.length < (fpIter g B s (i + 1 + 1)).W.length) = _
        rw [fpIter_succ_left g B s (i + 1)]
      rw [hp, ih (fpRound g B s)]
      cases hfind : (List.range r).find?
          (fun i => decide (k * S.length <
            (fpIter g B (fpRound g B s) (i + 1)).W.length)) with
      | some i =>
        show (fpIter g B (fpRound g B s) (i + 1), true) = _
        rw [← fpIter_succ_left g B s (i + 1)]
        rfl
      | none =>
        show (fpIter g B (fpRound g B s) r, false) = _
        rw [← fpIter_succ_left g B s r]
        rfl

/-- Claim C6: `FindPivots(B, S, graph)` returns `(S, W)` directly at the
first relaxation round `i + 1 ≤ k` after which `|W| > k·|S|`; if no round
triggers the early exit it performs exactly `k` rounds and returns `(P, W)`
where `P` holds exactly those `s ∈ S ∩ W` whose subtree size in the implicit
predecessor forest, computed by a traversal started from a fresh empty
visited set for each root, is at least `k`. -/
theorem claimC6 (g : Graph) (k : ℕ) (B : Dist) (S : List ℕ) (st : VState) :
    FindPivots g k B S st =
      match (List.range k).find?
          (fun i => decide (k * S.length <
            (fpIter g B ⟨st, S, S⟩ (i + 1)).W.length)) with
      | some i =>
        ((S, (fpIter g B ⟨st, S, S⟩ (i + 1)).W), (fpIter g B ⟨st, S, S⟩ (i + 1)).st)
      | none =>
        ((S.filter (fun s => s ∈ (fpIter g B ⟨st, S, S⟩ k).W ∧
            k ≤ (dfsNode (buildF (fpIter g B ⟨st, S, S⟩ k).st
                  (fpIter g B ⟨st, S, S⟩ k).W S)
                (dfsFuel (buildF (fpIter g B ⟨st, S, S⟩ k).st
                  (fpIter g B ⟨st, S, S⟩ k).W S)) s []).1),
          (fpIter g B ⟨st, S, S⟩ k).W), (fpIter g B ⟨st, S, S⟩ k).st) := by
  show (let r := fpRounds g B k S k ⟨st, S, S⟩
    if r.2 then ((S, r.1.W), r.1.st)
    else
      let F := buildF r.1.st r.1.W S
      let P := S.filter (fun s => s ∈ r.1.W ∧ k ≤ (dfsNode F (dfsFuel F) s []).1)
      ((P, r.1.W), r.1.st)) = _
  rw [fpRounds_eq_iter g B k S k ⟨st, S, S⟩]
  cases hfind : (List.range k).find?
      (fun i => decide (k * S.length < (fpIter g B ⟨st, S, S⟩ (i + 1)).W.length)) with
  | some i => rfl
  | none => rfl

/-! ## Claim C5: the shape of BaseCase's result -/

theorem mem_sinsert (x y : ℕ) (s : List ℕ) : x ∈ sinsert y s ↔ x = y ∨ x ∈ s := by
  unfold sinsert
  by_cases h : y ∈ s
  · rw [if_pos h]
    constructor
    · exact fun hx => Or.inr hx
    · rintro (rfl | hx)
      · exact h
      · exact hx
  · rw [if_neg h]
    exact List.mem_orderedInsert (· ≤ ·)

theorem sinsert_length_of_not_mem (y : ℕ) (s : List ℕ) (h : y ∉ s) :
    (sinsert y s).length = s.length + 1 := by
  unfold sinsert
  rw [if_neg h]
  exact List.orderedInsert_length (· ≤ ·) s y

theorem sinsert_length_le (y : ℕ) (s : List ℕ) :
    (sinsert y s).length ≤ s.length + 1 := by
  unfold sinsert
  by_cases h : y ∈ s
  · rw [if_pos h]; omega
  · rw [if_neg h, List.orderedInsert_length (· ≤ ·) s y]

theorem foldl_sinsert_length_le :
    ∀ (l init : List ℕ), (l.foldl (fun a x => sinsert x a) init).length
      ≤ init.length + l.length := by
  intro l
  induction l with
  | nil => intro init; simp
  | cons y t ih =>
    intro init
    show (t.foldl (fun a x => sinsert x a) (sinsert y init)).length ≤ _
    have h1 := ih (sinsert y init)
    have h2 := sinsert_length_le y init
    simp only [List.length_cons]
    omega

theorem mem_foldl_sinsert :
    ∀ (l init : List ℕ) (x : ℕ),
      x ∈ l.foldl (fun a y => sinsert y a) init ↔ x ∈ init ∨ x ∈ l := by
  intro l
  induction l with
  | nil => intro init x; simp
  | cons y t ih =>
    intro init x
    show x ∈ t.foldl (fun a y => sinsert y a) (sinsert y init) ↔ _
    rw [ih, mem_sinsert]
    simp only [List.mem_cons]
    tauto

theorem sorted_filter_lt_getD (l : List Dist) (hs : l.Sorted (· ≤ ·)) (k : ℕ)
    (hk : k < l.length) :
    (l.filter (fun x => x < l.getD k ⊤)).length ≤ k := by
  have hget : l.getD k ⊤ = l.get ⟨k, hk⟩ := by
    rw [List.getD_eq_getElem l ⊤ hk]
    rfl
  have hsplit : l = l.take k ++ l.drop k := (List.take_append_drop k l).symm
  have hdropeq : l.drop k = l.get ⟨k, hk⟩ :: l.drop (k + 1) := by
    rw [List.drop_eq_getElem_cons hk]
    rfl
  have hdrops : (l.drop k).Sorted (· ≤ ·) := hs.sublist (List.drop_sublist k l)
  rw [hdropeq] at hdrops
  rw [List.sorted_cons] at hdrops
  have hfilterdrop : (l.drop k).filter (fun x => x < l.getD k ⊤) = [] := by
    rw [List.filter_eq_nil]
    intro a ha
    rw [hdropeq] at ha
    rcases List.mem_cons.mp ha with rfl | ha'
    · rw [hget]
      simp
    · have := hdrops.1 a ha'
      rw [hget]
      simp only [decide_eq_true_eq, not_lt]
      exact this
  calc (l.filter (fun x => x < l.getD k ⊤)).length
      = ((l.take k ++ l.drop k).filter (fun x => x < l.getD k ⊤)).length := by
        rw [← hsplit]
    _ = ((l.take k).filter (fun x => x < l.getD k ⊤)).length
        + ((l.drop k).filter (fun x => x < l.getD k ⊤)).length := by
        rw [List.filter_append, List.length_append]
    _ ≤ (l.take k).length + 0 := by
        rw [hfilterdrop]
        exact Nat.add_le_add (List.length_filter_le _ _) (le_refl 0)
    _ ≤ k := by
        simp [List.length_take]

theorem bcLoop_inv (g : Graph) (k : ℕ) (B : Dist) :
    ∀ (fuel : ℕ) (s : BCState),
      s.cands.length = s.U0.length → s.U0.length ≤ k + 1 →
      (∀ v, v ∈ s.U0 ↔ ∃ d, (v, d) ∈ s.cands) →
      (bcLoop g k B fuel s).cands.length = (bcLoop g k B fuel s).U0.length
      ∧ (bcLoop g k B fuel s).U0.length ≤ k + 1
      ∧ (∀ v, v ∈ (bcLoop g k B fuel s).U0 ↔
          ∃ d, (v, d) ∈ (bcLoop g k B fuel s).cands) := by
  intro fuel
  induction fuel with
  | zero => intro s h1 h2 h3; exact ⟨h1, h2, h3⟩
  | succ fuel ih =>
    intro s h1 h2 h3
    rw [bcLoop]
    by_cases hH : s.H = []
    · rw [if_pos hH]; exact ⟨h1, h2, h3⟩
    · rw [if_neg hH]
      by_cases hU : ¬ s.U0.length < k + 1
      · rw [if_pos hU]; exact ⟨h1, h2, h3⟩
      · rw [if_neg hU]
        cases hpop : popMin s.H with
        | none => exact ⟨h1, h2, h3⟩
        | some p =>
          obtain ⟨e, H'⟩ := p
          dsimp only
          cases hst : bcStale s.st e with
          | true =>
            rw [if_pos rfl]
            exact ih _ h1 h2 h3
          | false =>
            rw [if_neg Bool.false_ne_true]
            by_cases hmem : e.vx ∈ s.U0
            · rw [if_pos hmem]
              exact ih _ h1 h2 h3
            · rw [if_neg hmem]
              refine ih _ ?_ ?_ ?_
              · show (s.cands ++ [(e.vx, e.d)]).length = (sinsert e.vx s.U0).length
                rw [List.length_append, sinsert_length_of_not_mem _ _ hmem, h1]
                rfl
              · show (sinsert e.vx s.U0).length ≤ k + 1
                rw [sinsert_length_of_not_mem _ _ hmem]
                push_neg at hU
                omega
              · intro v
                show v ∈ sinsert e.vx s.U0 ↔ ∃ d, (v, d) ∈ s.cands ++ [(e.vx, e.d)]
                rw [mem_sinsert]
                constructor
                · rintro (rfl | hv)
                  · exact ⟨e.d, List.mem_append.mpr (Or.inr (List.mem_singleton.mpr rfl))⟩
                  · obtain ⟨d, hd⟩ := (h3 v).mp hv
                    exact ⟨d, List.mem_append.mpr (Or.inl hd)⟩
                · rintro ⟨d, hd⟩
                  rcases List.mem_append.mp hd with hd1 | hd2
                  · exact Or.inr ((h3 v).mpr ⟨d, hd1⟩)
                  · rw [List.mem_singleton] at hd2
                    exact Or.inl (congrArg Prod.fst hd2)

/-- Claim C5: `BaseCase(B, S, graph)` completes at most `k + 1` vertices,
returns `(B, U0)` unchanged when at most `k` vertices were completed, and
otherwise returns `(B', U)` where `B'` is the `(k+1)`-th smallest completed
distance (index `k` of the ascending sort of the recorded completion
distances) and `U` holds exactly the completed vertices whose completion
distance is strictly below `B'` — at most `k` of them. -/
theorem claimC5 (g : Graph) (k : ℕ) (B : Dist) (S : List ℕ) (st : VState) :
    let fin := bcLoop g k B (bcFuel g k S)
      ⟨st, S.map (fun x => ⟨st.dh x, st.pa x, x, predZ st x⟩), [], []⟩
    fin.U0.length ≤ k + 1
    ∧ (fin.U0.length ≤ k → BaseCase g k B S st = ((B, fin.U0), fin.st))
    ∧ (k < fin.U0.length →
        (BaseCase g k B S st).1.1
          = (sortDists (fin.cands.map Prod.snd)).getD k ⊤
        ∧ (∀ v, v ∈ (BaseCase g k B S st).1.2 ↔
            ∃ d, (v, d) ∈ fin.cands
              ∧ d < (sortDists (fin.cands.map Prod.snd)).getD k ⊤)
        ∧ (BaseCase g k B S st).1.2.length ≤ k) := by
  intro fin
  obtain ⟨h1, h2, h3⟩ := bcLoop_inv g k B (bcFuel g k S)
    ⟨st, S.map (fun x => ⟨st.dh x, st.pa x, x, predZ st x⟩), [], []⟩
    rfl (by simp) (by intro v; simp)
  have hBC : BaseCase g k B S st = (bcFinish k B fin, fin.st) := rfl
  refine ⟨h2, ?_, ?_⟩
  · intro hle
    rw [hBC]
    unfold bcFinish
    rw [if_pos hle]
  · intro hgt
    have hnotle : ¬ fin.U0.length ≤ k := by omega
    have hsortlen : (sortDists (fin.cands.map Prod.snd)).length = fin.U0.length := by
      unfold sortDists
      rw [List.length_insertionSort, List.length_map, h1]
    have hklen : k < (sortDists (fin.cands.map Prod.snd)).length := by
      rw [hsortlen]; exact hgt
    have hBfin : bcFinish k B fin
        = ((sortDists (fin.cands.map Prod.snd)).getD k ⊤,
          ((fin.cands.filter
            (fun p => p.2 < (sortDists (fin.cands.map Prod.snd)).getD k ⊤)).map
              Prod.fst).foldl (fun a x => sinsert x a) []) := by
      unfold bcFinish
      rw [if_neg hnotle]
      simp only [hklen, if_true]
    refine ⟨?_, ?_, ?_⟩
    · rw [hBC, hBfin]
    · intro v
      rw [hBC, hBfin]
      show v ∈ ((fin.cands.filter _).map Prod.fst).foldl (fun a x => sinsert x a) [] ↔ _
      rw [mem_foldl_sinsert]
      simp only [List.not_mem_nil, false_or, List.mem_map, List.mem_filter,
        decide_eq_true_eq]
      constructor
      · rintro ⟨p, ⟨hp, hplt⟩, rfl⟩
        exact ⟨p.2, hp, hplt⟩
      · rintro ⟨d, hd, hdlt⟩
        exact ⟨(v, d), ⟨hd, hdlt⟩, rfl⟩
    · rw [hBC, hBfin]
      show (((fin.cands.filter _).map Prod.fst).foldl (fun a x => sinsert x a) []).length ≤ k
      have hfl := foldl_sinsert_length_le
        ((fin.cands.filter
          (fun p => p.2 < (sortDists (fin.cands.map Prod.snd)).getD k ⊤)).map Prod.fst) []
      have hcount : ((fin.cands.map Prod.snd).filter
          (fun x => x < (sortDists (fin.cands.map Prod.snd)).getD k ⊤)).length ≤ k := by
        have hperm : List.Perm (sortDists (fin.cands.map Prod.snd))
            (fin.cands.map Prod.snd) :=
          List.perm_insertionSort (· ≤ ·) (fin.cands.map Prod.snd)
        have hsorted : (sortDists (fin.cands.map Prod.snd)).Sorted (· ≤ ·) :=
          List.sorted_insertionSort (· ≤ ·) (fin.cands.map Prod.snd)
        have hgd := sorted_filter_lt_getD (sortDists (fin.cands.map Prod.snd))
          hsorted k hklen
        have hlen := (hperm.filter
          (fun x => x < (sortDists (fin.cands.map Prod.snd)).getD k ⊤)).length_eq
        omega
      have hmapfil : (fin.cands.map Prod.snd).filter
            (fun x => x < (sortDists (fin.cands.map Prod.snd)).getD k ⊤)
          = (fin.cands.filter
            (fun p => p.2 < (sortDists (fin.cands.map Prod.snd)).getD k ⊤)).map
              Prod.snd := by
        rw [List.filter_map]
        rfl
      rw [hmapfil] at hcount
      simp only [List.length_map] at hcount hfl
      simp only [List.length_nil] at hfl
      omega

/-! ## Claim C7: termination safeguards -/

theorem bmLoop_trace (g : Graph)
    (recur : Dist → List ℕ → VState → (Dist × List ℕ) × VState)
    (B : Dist) (maxU : ℕ) :
    ∀ (fuel : ℕ) (s : LoopState),
      (bmLoop g recur B maxU fuel s).trace.length ≤ s.trace.length + fuel := by
  intro fuel
  induction fuel with
  | zero => intro s; simp [bmLoop]
  | succ fuel ih =>
    intro s
    rw [bmLoop]
    by_cases h1 : ¬ s.curU.length < maxU
    · rw [if_pos h1]; omega
    · rw [if_neg h1]
      by_cases h2 : s.D.isEmpty = true
      · rw [if_pos h2]; omega
      · rw [if_neg h2]
        dsimp only
        by_cases h3 : subsetB ((s.D.Pull.2.1.map Prod.fst).foldl
            (fun a x => sinsert x a) []) s.processed = true ∧ 5 < s.stall + 1
        · rw [if_pos h3]
          simp only [List.length_append, List.length_singleton]
          omega
        · rw [if_neg h3]
          refine le_trans (ih _) ?_
          simp only [List.length_append, List.length_singleton]
          omega

theorem bmLoop_stall (g : Graph)
    (recur : Dist → List ℕ → VState → (Dist × List ℕ) × VState)
    (B : Dist) (maxU : ℕ) :
    ∀ (fuel : ℕ) (s : LoopState), s.stall ≤ 5 →
      (bmLoop g recur B maxU fuel s).stall ≤ 6 := by
  intro fuel
  induction fuel with
  | zero => intro s h; show s.stall ≤ 6; omega
  | succ fuel ih =>
    intro s h
    rw [bmLoop]
    by_cases h1 : ¬ s.curU.length < maxU
    · rw [if_pos h1]; omega
    · rw [if_neg h1]
      by_cases h2 : s.D.isEmpty = true
      · rw [if_pos h2]; omega
      · rw [if_neg h2]
        dsimp only
        by_cases h3 : subsetB ((s.D.Pull.2.1.map Prod.fst).foldl
            (fun a x => sinsert x a) []) s.processed = true ∧ 5 < s.stall + 1
        · rw [if_pos h3]
          show s.stall + 1 ≤ 6
          omega
        · rw [if_neg h3]
          refine ih _ ?_
          push_neg at h3
          by_cases h4 : subsetB ((s.D.Pull.2.1.map Prod.fst).foldl
              (fun a x => sinsert x a) []) s.processed = true
          · show (if subsetB ((s.D.Pull.2.1.map Prod.fst).foldl
                (fun a x => sinsert x a) []) s.processed = true
                then s.stall + 1 else 0) ≤ 5
            rw [if_pos h4]
            have := h3 h4
            omega
          · show (if subsetB ((s.D.Pull.2.1.map Prod.fst).foldl
                (fun a x => sinsert x a) []) s.processed = true
                then s.stall + 1 else 0) ≤ 5
            rw [if_neg h4]
            omega

theorem bmLoop_stall_break (g : Graph)
    (recur : Dist → List ℕ → VState → (Dist × List ℕ) × VState)
    (B : Dist) (maxU fuel : ℕ) (s : LoopState)
    (h1 : s.curU.length < maxU) (h2 : s.D.isEmpty = false)
    (h3 : subsetB ((s.D.Pull.2.1.map Prod.fst).foldl (fun a x => sinsert x a) [])
      s.processed = true)
    (h4 : 5 < s.stall + 1) :
    bmLoop g recur B maxU (fuel + 1) s =
      { s with
        trace := s.trace ++
          [(s.D.Pull.2.1.map Prod.fst).foldl (fun a x => sinsert x a) []],
        D := s.D.Pull.2.2, stall := s.stall + 1, stallBroke := true } := by
  rw [bmLoop]
  rw [if_neg (not_not_intro h1)]
  rw [if_neg (by simp [h2])]
  dsimp only
  rw [if_pos ⟨h3, h4⟩]

theorem removeFirst_length (e : HEntry) :
    ∀ l : List HEntry, e ∈ l → (removeFirst e l).length + 1 = l.length := by
  intro l
  induction l with
  | nil => intro h; exact absurd h (List.not_mem_nil e)
  | cons f rest ih =>
    intro h
    show (if f = e then rest else f :: removeFirst e rest).length + 1
      = rest.length + 1
    by_cases hf : f = e
    · rw [if_pos hf]
    · rw [if_neg hf]
      have hmem : e ∈ rest := by
        rcases List.mem_cons.mp h with h' | h'
        · exact absurd h'.symm hf
        · exact h'
      have := ih hmem
      simp only [List.length_cons]
      omega

theorem foldl_pick_mem (hd : HEntry) (t : List HEntry) :
    t.foldl (fun b f => if hentryLt f b then f else b) hd ∈ hd :: t := by
  have aux : ∀ (t' : List HEntry) (acc : HEntry),
      t'.foldl (fun b f => if hentryLt f b then f else b) acc = acc
      ∨ t'.foldl (fun b f => if hentryLt f b then f else b) acc ∈ t' := by
    intro t'
    induction t' with
    | nil => intro acc; exact Or.inl rfl
    | cons y ys ihy =>
      intro acc
      rcases ihy (if hentryLt y acc then y else acc) with h1 | h1
      · by_cases hy : hentryLt y acc = true
        · refine Or.inr ?_
          rw [List.foldl_cons, h1, if_pos hy]
          exact List.mem_cons_self y ys
        · refine Or.inl ?_
          rw [List.foldl_cons, h1, if_neg hy]
      · refine Or.inr ?_
        rw [List.foldl_cons]
        exact List.mem_cons_of_mem _ h1
  rcases aux t hd with h | h
  · rw [h]; exact List.mem_cons_self _ _
  · exact List.mem_cons_of_mem _ h

theorem popMin_some (H : List HEntry) (e : HEntry) (H' : List HEntry)
    (h : popMin H = some (e, H')) : e ∈ H ∧ H'.length + 1 = H.length := by
  cases H with
  | nil => simp [popMin] at h
  | cons hd t =>
    have h' : (t.foldl (fun b f => if hentryLt f b then f else b) hd,
        removeFirst (t.foldl (fun b f => if hentryLt f b then f else b) hd) (hd :: t))
        = (e, H') := by
      simpa [popMin] using h
    have he : t.foldl (fun b f => if hentryLt f b then f else b) hd = e :=
      congrArg Prod.fst h'
    have hH' : removeFirst (t.foldl (fun b f => if hentryLt f b then f else b) hd)
        (hd :: t) = H' := congrArg Prod.snd h'
    have hmem : e ∈ hd :: t := he ▸ foldl_pick_mem hd t
    refine ⟨hmem, ?_⟩
    rw [← hH', he]
    exact removeFirst_length e (hd :: t) hmem

theorem foldl_snd_length_le {γ β α : Type} (f : γ × List α → β → γ × List α)
    (hf : ∀ a x, ((f a x).2).length ≤ a.2.length + 1) :
    ∀ (l : List β) (acc : γ × List α),
      ((l.foldl f acc).2).length ≤ acc.2.length + l.length := by
  intro l
  induction l with
  | nil => intro acc; simp
  | cons x t ih =>
    intro acc
    have h1 := ih (f acc x)
    have h2 := hf acc x
    simp only [List.foldl_cons, List.length_cons]
    omega

theorem bcRelax_length (g : Graph) (B : Dist) (u : ℕ) (cd : Dist) (ca : Alpha)
    (st : VState) (H : List HEntry) :
    (bcRelax g B u cd ca st H).2.length ≤ H.length + (graphGet g u).length := by
  unfold bcRelax
  refine foldl_snd_length_le _ ?_ (graphGet g u) (st, H)
  intro a x
  dsimp only
  split_ifs <;> simp

theorem lookupA_mem {β : Type} :
    ∀ (l : List (ℕ × β)) (a : ℕ) (b : β), lookupA l a = some b → (a, b) ∈ l := by
  intro l
  induction l with
  | nil => intro a b h; simp [lookupA] at h
  | cons kv rest ih =>
    intro a b h
    obtain ⟨k, v⟩ := kv
    rw [lookupA] at h
    by_cases hk : k = a
    · rw [if_pos hk] at h
      have : v = b := Option.some.inj h
      subst hk
      subst this
      exact List.mem_cons_self _ _
    · rw [if_neg hk] at h
      exact List.mem_cons_of_mem _ (ih a b h)

theorem graphGet_length_le (g : Graph) (u : ℕ) :
    (graphGet g u).length ≤ totalEdges g := by
  unfold graphGet
  cases hl : lookupA g u with
  | none => simp
  | some nbrs =>
    show nbrs.length ≤ totalEdges g
    have hmem := lookupA_mem g u nbrs hl
    have : nbrs.length ∈ g.map (fun p => p.2.length) :=
      List.mem_map_of_mem (fun p => p.2.length) hmem
    exact List.single_le_sum (fun _ _ => Nat.zero_le _) _ this

theorem bcLoop_stable (g : Graph) (k : ℕ) (B : Dist) :
    ∀ (fuel : ℕ) (s : BCState), bcMeasure g k s ≤ fuel →
      bcLoop g k B (fuel + 1) s = bcLoop g k B fuel s := by
  intro fuel
  induction fuel with
  | zero =>
    intro s h
    have hH : s.H = [] := by
      have : s.H.length = 0 := by
        unfold bcMeasure at h
        omega
      exact List.length_eq_zero.mp this
    show bcLoop g k B (0 + 1) s = bcLoop g k B 0 s
    conv_lhs => rw [bcLoop]
    rw [if_pos hH]
    rfl
  | succ fuel ih =>
    intro s h
    conv_lhs => rw [bcLoop]
    conv_rhs => rw [bcLoop]
    by_cases hH : s.H = []
    · rw [if_pos hH, if_pos hH]
    · rw [if_neg hH, if_neg hH]
      by_cases hU : ¬ s.U0.length < k + 1
      · rw [if_pos hU, if_pos hU]
      · rw [if_neg hU, if_neg hU]
        cases hpop : popMin s.H with
        | none => rfl
        | some p =>
          obtain ⟨e, H'⟩ := p
          obtain ⟨hmem_e, hlen⟩ := popMin_some s.H e H' hpop
          dsimp only
          cases hst : bcStale s.st e with
          | true =>
            rw [if_pos rfl, if_pos rfl]
            refine ih _ ?_
            unfold bcMeasure at h ⊢
            dsimp only
            generalize (k + 1 - s.U0.length) * (totalEdges g + 1) = X at h ⊢
            omega
          | false =>
            rw [if_neg Bool.false_ne_true, if_neg Bool.false_ne_true]
            by_cases hmem : e.vx ∈ s.U0
            · rw [if_pos hmem, if_pos hmem]
              refine ih _ ?_
              unfold bcMeasure at h ⊢
              dsimp only
              generalize (k + 1 - s.U0.length) * (totalEdges g + 1) = X at h ⊢
              omega
            · rw [if_neg hmem, if_neg hmem]
              refine ih _ ?_
              have hr := bcRelax_length g B e.vx e.d e.a s.st H'
              have hlg := graphGet_length_le g e.vx
              have hsin : (sinsert e.vx s.U0).length = s.U0.length + 1 :=
                sinsert_length_of_not_mem _ _ hmem
              unfold bcMeasure at h ⊢
              dsimp only
              rw [hsin]
              push_neg at hU
              have hc1 : k + 1 - s.U0.length = (k - s.U0.length) + 1 := by omega
              have hc2 : k + 1 - (s.U0.length + 1) = k - s.U0.length := by omega
              rw [hc1] at h
              rw [hc2]
              have hmul : (k - s.U0.length + 1) * (totalEdges g + 1)
                  = (k - s.U0.length) * (totalEdges g + 1) + (totalEdges g + 1) := by
                ring
              rw [hmul] at h
              generalize (k - s.U0.length) * (totalEdges g + 1) = X at h ⊢
              omega

theorem bcLoop_stable_add (g : Graph) (k : ℕ) (B : Dist) :
    ∀ (j fuel : ℕ) (s : BCState), bcMeasure g k s ≤ fuel →
      bcLoop g k B (fuel + j) s = bcLoop g k B fuel s := by
  intro j
  induction j with
  | zero => intro fuel s h; rfl
  | succ j ih =>
    intro fuel s h
    show bcLoop g k B (fuel + j + 1) s = bcLoop g k B fuel s
    rw [bcLoop_stable g k B (fuel + j) s (le_trans h (Nat.le_add_right _ _)),
      ih fuel s h]

/-- Claim C7: the termination safeguards of the solver.  (1) `BMSSP`'s main
loop appends one pulled set to the (ghost) trace per iteration and runs at
most `fuel` iterations; (2) with the source's own cap `max(1000, 10·n)` as
fuel a frame beginning with an empty trace iterates at most `max(1000, 10·n)`
times; (3) the stall counter never passes 6: at most six consecutive pulls
may recur inside the already-processed set; (4) when a pulled set recurs
with the counter already past the threshold the loop halts at once in a
partial state flagged `stallBroke`; (5) `BaseCase`'s inner loop is fuel
stable at `bcFuel`: granting any extra fuel leaves its result unchanged, so
the embedded loop terminates of its own accord rather than by the fuel
bound. -/
theorem claimC7 (g : Graph)
    (recur : Dist → List ℕ → VState → (Dist × List ℕ) × VState)
    (B : Dist) (maxU n k : ℕ) (S : List ℕ) (st : VState) :
    (∀ (fuel : ℕ) (s : LoopState),
      (bmLoop g recur B maxU fuel s).trace.length ≤ s.trace.length + fuel)
    ∧ (∀ s : LoopState, s.trace = [] →
        (bmLoop g recur B maxU (max 1000 (n * 10)) s).trace.length
          ≤ max 1000 (n * 10))
    ∧ (∀ (fuel : ℕ) (s : LoopState), s.stall ≤ 5 →
        (bmLoop g recur B maxU fuel s).stall ≤ 6)
    ∧ (∀ (fuel : ℕ) (s : LoopState),
        s.curU.length < maxU → s.D.isEmpty = false →
        subsetB ((s.D.Pull.2.1.map Prod.fst).foldl (fun a x => sinsert x a) [])
          s.processed = true →
        5 < s.stall + 1 →
        bmLoop g recur B maxU (fuel + 1) s =
          { s with
            trace := s.trace ++
              [(s.D.Pull.2.1.map Prod.fst).foldl (fun a x => sinsert x a) []],
            D := s.D.Pull.2.2, stall := s.stall + 1, stallBroke := true })
    ∧ (∀ extra : ℕ,
        bcLoop g k B (bcFuel g k S)
          ⟨st, S.map (fun x => ⟨st.dh x, st.pa x, x, predZ st x⟩), [], []⟩
        = bcLoop g k B (bcFuel g k S + extra)
          ⟨st, S.map (fun x => ⟨st.dh x, st.pa x, x, predZ st x⟩), [], []⟩) := by
  refine ⟨bmLoop_trace g recur B maxU, ?_, bmLoop_stall g recur B maxU,
    fun fuel s => bmLoop_stall_break g recur B maxU fuel s, ?_⟩
  · intro s hs
    have := bmLoop_trace g recur B maxU (max 1000 (n * 10)) s
    rw [hs] at this
    simpa using this
  · intro extra
    refine (bcLoop_stable_add g k B extra (bcFuel g k S) _ ?_).symm
    unfold bcMeasure bcFuel
    dsimp only
    simp only [List.length_map, List.length_nil, Nat.sub_zero]
    have hmono : (k + 1) * (totalEdges g + 1) ≤ (k + 2) * (totalEdges g + 1) :=
      Nat.mul_le_mul_right _ (by omega)
    generalize (k + 1) * (totalEdges g + 1) = X at hmono ⊢
    generalize (k + 2) * (totalEdges g + 1) = Y at hmono ⊢
    omega

/-! ## Claims C1 and C8 (amended): every returned distance is a walk weight -/

theorem walk_nonneg (g : Graph) (src : ℕ) (hg : NonnegG g) :
    ∀ (v : ℕ) (q : ℚ), Walk g src v q → 0 ≤ q := by
  intro v q hw
  induction hw with
  | nil => exact le_refl 0
  | cons hw hmem ih => exact add_nonneg ih (hg _ _ hmem)

theorem foldl_preserve {α β : Type} (C : β → Prop) (f : β → α → β) :
    ∀ (l : List α) (b : β), C b →
      (∀ x ∈ l, ∀ acc, C acc → C (f acc x)) → C (l.foldl f b) := by
  intro l
  induction l with
  | nil => intro b hb _; exact hb
  | cons x t ih =>
    intro b hb hstep
    exact ih (f b x) (hstep x (List.mem_cons_self _ _) b hb)
      (fun y hy => hstep y (List.mem_cons_of_mem _ hy))

theorem dist_add_coe_eq_coe (cd : Dist) (w q : ℚ)
    (h : cd + ((w : ℚ) : Dist) = ((q : ℚ) : Dist)) :
    ∃ qu : ℚ, cd = ((qu : ℚ) : Dist) ∧ qu + w = q := by
  cases hcd : cd with
  | none =>
    rw [hcd, show (none : Dist) = (⊤ : Dist) from rfl, WithTop.top_add] at h
    exact absurd h (by simp)
  | some qu =>
    rw [hcd, show (some qu : Dist) = ((qu : ℚ) : Dist) from rfl,
      ← WithTop.coe_add] at h
    exact ⟨qu, rfl, by exact_mod_cast h⟩

theorem WInv_setV (g : Graph) (src : ℕ) (st : VState) (u v : ℕ) (w : ℚ)
    (cd : Dist) (na : Alpha) (hW : WInv g src st)
    (hmem : (v, w) ∈ graphGet g u)
    (hu : ∀ qu : ℚ, cd = ((qu : ℚ) : Dist) → Walk g src u qu) :
    WInv g src (setV st v (cd + ((w : ℚ) : Dist)) na u) := by
  intro x q hx
  by_cases hxv : x = v
  · have hx' : cd + ((w : ℚ) : Dist) = ((q : ℚ) : Dist) := by
      simpa [setV, hxv] using hx
    obtain ⟨qu, hcd, hq⟩ := dist_add_coe_eq_coe cd w q hx'
    subst hxv
    rw [← hq]
    exact Walk.cons (hu qu hcd) hmem
  · have hx' : st.dh x = ((q : ℚ) : Dist) := by
      simpa [setV, hxv] using hx
    exact hW x q hx'

theorem HInv_sublist (g : Graph) (src : ℕ) (H H' : List HEntry)
    (hs : List.Sublist H' H) (h : HInv g src H) : HInv g src H' :=
  fun e he q heq => h e (hs.mem he) q heq

theorem removeFirst_sublist (e : HEntry) :
    ∀ l : List HEntry, List.Sublist (removeFirst e l) l := by
  intro l
  induction l with
  | nil => exact List.Sublist.refl []
  | cons f rest ih =>
    show List.Sublist (if f = e then rest else f :: removeFirst e rest) (f :: rest)
    by_cases hf : f = e
    · rw [if_pos hf]
      exact List.sublist_cons_self f rest
    · rw [if_neg hf]
      exact ih.cons₂ f

theorem popMin_sublist (H : List HEntry) (e : HEntry) (H' : List HEntry)
    (h : popMin H = some (e, H')) : List.Sublist H' H := by
  cases H with
  | nil => simp [popMin] at h
  | cons hd t =>
    have h' : (t.foldl (fun b f => if hentryLt f b then f else b) hd,
        removeFirst (t.foldl (fun b f => if hentryLt f b then f else b) hd) (hd :: t))
        = (e, H') := by
      simpa [popMin] using h
    have hH' : removeFirst (t.foldl (fun b f => if hentryLt f b then f else b) hd)
        (hd :: t) = H' := congrArg Prod.snd h'
    rw [← hH']
    exact removeFirst_sublist _ _

theorem bcRelax_inv (g : Graph) (src : ℕ) (B : Dist) (u : ℕ) (cd : Dist)
    (ca : Alpha) (st : VState) (H : List HEntry)
    (hW : WInv g src st) (hH : HInv g src H)
    (hu : ∀ qu : ℚ, cd = ((qu : ℚ) : Dist) → Walk g src u qu) :
    WInv g src (bcRelax g B u cd ca st H).1
    ∧ HInv g src (bcRelax g B u cd ca st H).2 := by
  unfold bcRelax
  refine foldl_preserve
    (fun acc => WInv g src acc.1 ∧ HInv g src acc.2) _
    (graphGet g u) (st, H) ⟨hW, hH⟩ ?_
  intro vw hvw a ha
  dsimp only
  by_cases h1 : (cd + ((vw.2 : ℚ) : Dist)) < B
  · rw [if_pos h1]
    by_cases h2 : updateNeededBase (cd + ((vw.2 : ℚ) : Dist)) (ca + 1) u
        (a.1.dh vw.1) (a.1.pa vw.1) (predW a.1 vw.1) = true
    · rw [if_pos h2]
      refine ⟨?_, ?_⟩
      · exact WInv_setV g src a.1 u vw.1 vw.2 cd (ca + 1) ha.1
          (by simpa using hvw) hu
      · intro e he q heq
        rcases List.mem_append.mp he with he1 | he2
        · exact ha.2 e he1 q heq
        · rw [List.mem_singleton] at he2
          subst he2
          have hx' : cd + ((vw.2 : ℚ) : Dist) = ((q : ℚ) : Dist) := heq
          obtain ⟨qu, hcd, hq⟩ := dist_add_coe_eq_coe cd vw.2 q hx'
          show Walk g src vw.1 q
          rw [← hq]
          exact Walk.cons (hu qu hcd) (by simpa using hvw)
    · rw [if_neg h2]; exact ha
  · rw [if_neg h1]; exact ha

theorem bcLoop_WInv (g : Graph) (src : ℕ) (k : ℕ) (B : Dist) :
    ∀ (fuel : ℕ) (s : BCState), WInv g src s.st → HInv g src s.H →
      WInv g src (bcLoop g k B fuel s).st ∧ HInv g src (bcLoop g k B fuel s).H := by
  intro fuel
  induction fuel with
  | zero => intro s hW hH; exact ⟨hW, hH⟩
  | succ fuel ih =>
    intro s hW hH
    rw [bcLoop]
    by_cases hHn : s.H = []
    · rw [if_pos hHn]; exact ⟨hW, hH⟩
    · rw [if_neg hHn]
      by_cases hU : ¬ s.U0.length < k + 1
      · rw [if_pos hU]; exact ⟨hW, hH⟩
      · rw [if_neg hU]
        cases hpop : popMin s.H with
        | none => exact ⟨hW, hH⟩
        | some p =>
          obtain ⟨e, H'⟩ := p
          have hsub := popMin_sublist s.H e H' hpop
          have hH' : HInv g src H' := HInv_sublist g src s.H H' hsub hH
          have hmem_e : e ∈ s.H := ((popMin_some s.H e H' hpop).1)
          dsimp only
          cases hst : bcStale s.st e with
          | true =>
            rw [if_pos rfl]
            exact ih _ hW hH'
          | false =>
            rw [if_neg Bool.false_ne_true]
            by_cases hmem : e.vx ∈ s.U0
            · rw [if_pos hmem]
              exact ih _ hW hH'
            · rw [if_neg hmem]
              have hrel := bcRelax_inv g src B e.vx e.d e.a s.st H' hW hH'
                (fun qu hq => hH e hmem_e qu hq)
              exact ih _ hrel.1 hrel.2

theorem BaseCase_WInv (g : Graph) (src : ℕ) (k : ℕ) (B : Dist) (S : List ℕ)
    (st : VState) (hW : WInv g src st) :
    WInv g src (BaseCase g k B S st).2 := by
  unfold BaseCase
  dsimp only
  refine (bcLoop_WInv g src k B (bcFuel g k S)
    ⟨st, S.map (fun x => ⟨st.dh x, st.pa x, x, predZ st x⟩), [], []⟩ hW ?_).1
  intro e he q heq
  obtain ⟨x, _, hx⟩ := List.mem_map.mp he
  have hd : st.dh x = ((q : ℚ) : Dist) := by
    rw [← heq, ← hx]
  have hvx : e.vx = x := by rw [← hx]
  rw [hvx]
  exact hW x q hd

theorem fpRound_WInv (g : Graph) (src : ℕ) (B : Dist) (s : FPState)
    (hW : WInv g src s.st) : WInv g src (fpRound g B s).st := by
  unfold fpRound
  dsimp only
  refine foldl_preserve
    (fun (acc : VState × List ℕ × List ℕ) => WInv g src acc.1) _
    s.Wi (s.st, s.W, []) hW ?_
  intro u hu acc hacc
  dsimp only
  by_cases hg : graphHas g u = true
  · rw [if_pos hg]
    refine foldl_preserve
      (fun (a : VState × List ℕ × List ℕ) => WInv g src a.1) _
      (graphGet g u) acc hacc ?_
    intro vw hvw a ha
    dsimp only
    have hset : WInv g src (setV a.1 vw.1 (a.1.dh u + ((vw.2 : ℚ) : Dist))
        (a.1.pa u + 1) u) :=
      WInv_setV g src a.1 u vw.1 vw.2 (a.1.dh u) (a.1.pa u + 1) ha
        (by simpa using hvw) (fun qu hq => ha u qu hq)
    split_ifs <;> first | exact hset | exact ha
  · rw [if_neg hg]; exact hacc

theorem fpRounds_WInv (g : Graph) (src : ℕ) (B : Dist) (k : ℕ) (S : List ℕ) :
    ∀ (r : ℕ) (s : FPState), WInv g src s.st →
      WInv g src (fpRounds g B k S r s).1.st := by
  intro r
  induction r with
  | zero => intro s h; exact h
  | succ r ih =>
    intro s h
    show WInv g src ((if k * S.length < (fpRound g B s).W.length
        then (fpRound g B s, true)
        else fpRounds g B k S r (fpRound g B s)).1.st)
    by_cases hc : k * S.length < (fpRound g B s).W.length
    · rw [if_pos hc]; exact fpRound_WInv g src B s h
    · rw [if_neg hc]; exact ih (fpRound g B s) (fpRound_WInv g src B s h)

theorem FindPivots_WInv (g : Graph) (src : ℕ) (k : ℕ) (B : Dist) (S : List ℕ)
    (st : VState) (hW : WInv g src st) :
    WInv g src (FindPivots g k B S st).2 := by
  have h := fpRounds_WInv g src B k S k ⟨st, S, S⟩ hW
  unfold FindPivots
  dsimp only
  by_cases hr : (fpRounds g B k S k ⟨st, S, S⟩).2 = true
  · rw [if_pos hr]; exact h
  · rw [if_neg hr]; exact h

theorem bmRelaxEdge_WInv (g : Graph) (src : ℕ) (relaxInsert : Bool)
    (B Bi Bpi : Dist) (u v : ℕ) (w : ℚ) (st : VState) (D : DS) (K : List BItem)
    (hW : WInv g src st) (hmem : (v, w) ∈ graphGet g u) :
    WInv g src (bmRelaxEdge relaxInsert B Bi Bpi u v w st D K).1 := by
  unfold bmRelaxEdge
  dsimp only
  have hset : WInv g src (setV st v (st.dh u + ((w : ℚ) : Dist)) (st.pa u + 1) u) :=
    WInv_setV g src st u v w (st.dh u) (st.pa u + 1) hW hmem
      (fun qu hq => hW u qu hq)
  split_ifs <;> first | exact hset | exact hW

theorem bmRelaxAll_WInv (g : Graph) (src : ℕ) (B Bi Bpi : Dist) (Ui : List ℕ)
    (st : VState) (D : DS) (hW : WInv g src st) :
    WInv g src (bmRelaxAll g B Bi Bpi Ui st D).1 := by
  unfold bmRelaxAll
  refine foldl_preserve
    (fun (acc : VState × DS × List BItem) => WInv g src acc.1) _
    Ui (st, D, []) hW ?_
  intro u hu acc hacc
  dsimp only
  by_cases hg : graphHas g u = true
  · rw [if_pos hg]
    refine foldl_preserve
      (fun (a : VState × DS × List BItem) => WInv g src a.1) _
      (graphGet g u) acc hacc ?_
    intro vw hvw a ha
    exact bmRelaxEdge_WInv g src HEURISTICS_RELAX_INSERT B Bi Bpi u vw.1 vw.2
      a.1 a.2.1 a.2.2 ha (by simpa using hvw)
  · rw [if_neg hg]; exact hacc

theorem bmLoop_WInv (g : Graph) (src : ℕ)
    (recur : Dist → List ℕ → VState → (Dist × List ℕ) × VState)
    (B : Dist) (maxU : ℕ)
    (hrec : ∀ (Bi : Dist) (Si : List ℕ) (st : VState),
      WInv g src st → WInv g src (recur Bi Si st).2) :
    ∀ (fuel : ℕ) (s : LoopState), WInv g src s.st →
      WInv g src (bmLoop g recur B maxU fuel s).st := by
  intro fuel
  induction fuel with
  | zero => intro s h; exact h
  | succ fuel ih =>
    intro s h
    rw [bmLoop]
    by_cases h1 : ¬ s.curU.length < maxU
    · rw [if_pos h1]; exact h
    · rw [if_neg h1]
      by_cases h2 : s.D.isEmpty = true
      · rw [if_pos h2]; exact h
      · rw [if_neg h2]
        dsimp only
        by_cases h3 : subsetB ((s.D.Pull.2.1.map Prod.fst).foldl
            (fun a x => sinsert x a) []) s.processed = true ∧ 5 < s.stall + 1
        · rw [if_pos h3]; exact h
        · rw [if_neg h3]
          refine ih _ ?_
          exact bmRelaxAll_WInv g src B _ _ _ _ _ (hrec _ _ _ h)

theorem BMSSP_WInv (g : Graph) (src : ℕ) (k t n : ℕ) :
    ∀ (l : ℕ) (B : Dist) (S : List ℕ) (st : VState), WInv g src st →
      WInv g src (BMSSP g k t n l B S st).2 := by
  intro l
  induction l with
  | zero => intro B S st h; exact BaseCase_WInv g src k B S st h
  | succ l ih =>
    intro B S st h
    rw [BMSSP]
    dsimp only
    exact bmLoop_WInv g src (BMSSP g k t n l) B _ ih _ _
      (FindPivots_WInv g src k B S st h)

theorem WInv_initState (g : Graph) (source : ℕ) :
    WInv g source (initState source) := by
  intro v q hv
  have hv' : (if v = source then ((0 : ℚ) : Dist) else ⊤) = ((q : ℚ) : Dist) := hv
  by_cases h : v = source
  · rw [if_pos h] at hv'
    have h0 : (0 : ℚ) = q := by exact_mod_cast hv'
    subst h
    rw [← h0]
    exact Walk.nil
  · rw [if_neg h] at hv'
    exact absurd hv' (by simp)

theorem res_lookup (st : VState) :
    ∀ (l : List ℕ) (v : ℕ) (q : ℚ),
      lookupA (l.foldr (fun v a =>
        match st.dh v with
        | ⊤ => a
        | (qq : ℚ) => (v, qq) :: a) []) v = some q →
      st.dh v = ((q : ℚ) : Dist) := by
  intro l
  induction l with
  | nil => intro v q h; exact absurd h (by simp [lookupA])
  | cons w rest ih =>
    intro v q h
    rw [List.foldr_cons] at h
    cases hw : st.dh w with
    | none =>
      rw [hw] at h
      exact ih v q h
    | some qq =>
      rw [hw] at h
      have h' : (if w = v then some qq
          else lookupA (rest.foldr (fun v a =>
            match st.dh v with
            | ⊤ => a
            | (qq : ℚ) => (v, qq) :: a) []) v) = some q := h
      by_cases hwv : w = v
      · rw [if_pos hwv] at h'
        have hqq : qq = q := Option.some.inj h'
        subst hwv
        rw [hw, hqq]
        rfl
      · rw [if_neg hwv] at h'
        exact ih v q h'

theorem solveCore_walk (n : ℕ) (edges : List (ℕ × ℕ × ℚ))
    (source k t lmax v : ℕ) (q : ℚ)
    (h : lookupA (solveCore n edges source k t lmax).1 v = some q) :
    Walk (buildGraph edges) source v q := by
  have hst : ((BMSSP (buildGraph edges) k t n lmax ⊤ [source]
      (initState source)).2).dh v = ((q : ℚ) : Dist) :=
    res_lookup _ (List.range n) v q h
  exact BMSSP_WInv (buildGraph edges) source k t n lmax ⊤ [source]
    (initState source) (WInv_initState _ source) v q hst

/-- Claim C1 (amended): every vertex present in the map returned by
`solve_sssp_directed_real_weights` carries the total weight of an actual
directed walk from the source to that vertex in the input graph — the
returned distances are achievable, hence never below the true shortest-path
distance; the original claim's 1e-9 agreement with a reference Dijkstra is
refuted separately by `claimC1_counterexample`. -/
theorem claimC1_amended (n m : ℕ) (edges : List (ℕ × ℕ × ℚ))
    (source v : ℕ) (q : ℚ)
    (h : lookupA (solve n m edges source) v = some q) :
    Walk (buildGraph edges) source v q :=
  solveCore_walk n edges source (kParam n) (tParam n) (lmaxParam n) v q h

theorem claimC1_amended_witness :
    lookupA (solve 5 7 esOver 0) 2 = some 5 ∧ Walk (buildGraph esOver) 0 2 5 := by
  have h : lookupA (solve 5 7 esOver 0) 2 = some 5 := by
    unfold solve
    rw [kParam_five, tParam_five, lmaxParam_five]
    decide
  exact ⟨h, claimC1_amended 5 7 esOver 0 2 5 h⟩

theorem setNbr_mem (v : ℕ) (w : ℚ) :
    ∀ (l : List (ℕ × ℚ)) (vw : ℕ × ℚ), vw ∈ setNbr l v w → vw ∈ l ∨ vw = (v, w) := by
  intro l
  induction l with
  | nil =>
    intro vw h
    rw [show setNbr [] v w = [(v, w)] from rfl, List.mem_singleton] at h
    exact Or.inr h
  | cons kv rest ih =>
    intro vw h
    obtain ⟨kk, xx⟩ := kv
    rw [setNbr] at h
    by_cases hk : kk = v
    · rw [if_pos hk] at h
      rcases List.mem_cons.mp h with h1 | h1
      · exact Or.inr h1
      · exact Or.inl (List.mem_cons_of_mem _ h1)
    · rw [if_neg hk] at h
      rcases List.mem_cons.mp h with h1 | h1
      · exact Or.inl (h1 ▸ List.mem_cons_self _ _)
      · rcases ih vw h1 with h2 | h2
        · exact Or.inl (List.mem_cons_of_mem _ h2)
        · exact Or.inr h2

theorem lookupA_insertEdge (u v : ℕ) (w : ℚ) :
    ∀ (g : Graph) (x : ℕ),
      lookupA (insertEdge g u v w) x
        = if x = u then some (setNbr (graphGet g u) v w) else lookupA g x := by
  intro g
  induction g with
  | nil =>
    intro x
    simp only [lookupA]
    by_cases hx : x = u
    · subst hx
      simp [setNbr, graphGet, lookupA]
    · rw [if_neg (fun hh => hx hh.symm), if_neg hx]
  | cons kv rest ih =>
    intro x
    obtain ⟨kk, nbrs⟩ := kv
    rw [insertEdge]
    by_cases hku : kk = u
    · rw [if_pos hku]
      rw [lookupA]
      by_cases hx : x = u
      · have hkx : kk = x := by rw [hku, hx]
        rw [if_pos hkx, if_pos hx]
        have hgg : graphGet ((kk, nbrs) :: rest) u = nbrs := by
          unfold graphGet
          rw [lookupA, if_pos hku]
          rfl
        rw [hgg]
      · have hkx : ¬ kk = x := by rw [hku]; exact fun hh => hx hh.symm
        rw [if_neg hkx, if_neg hx]
        rw [lookupA, if_neg hkx]
    · rw [if_neg hku]
      rw [lookupA]
      by_cases hkx : kk = x
      · rw [if_pos hkx]
        by_cases hx : x = u
        · exact absurd (hkx.trans hx) hku
        · rw [if_neg hx, lookupA, if_pos hkx]
      · rw [if_neg hkx, ih x]
        by_cases hx : x = u
        · rw [if_pos hx, if_pos hx]
          have hgg : graphGet ((kk, nbrs) :: rest) u = graphGet rest u := by
            unfold graphGet
            rw [lookupA, if_neg hku]
          rw [hgg]
        · rw [if_neg hx, if_neg hx, lookupA, if_neg hkx]

theorem NonnegG_insertEdge (g : Graph) (u v : ℕ) (w : ℚ)
    (hg : NonnegG g) (hw : 0 ≤ w) : NonnegG (insertEdge g u v w) := by
  intro x vw hvw
  unfold graphGet at hvw
  rw [lookupA_insertEdge u v w g x] at hvw
  by_cases hx : x = u
  · rw [if_pos hx] at hvw
    have hvw' : vw ∈ setNbr (graphGet g u) v w := hvw
    rcases setNbr_mem v w (graphGet g u) vw hvw' with h1 | h1
    · exact hg u vw h1
    · rw [h1]
      exact hw
  · rw [if_neg hx] at hvw
    exact hg x vw hvw

theorem buildGraph_nonneg (edges : List (ℕ × ℕ × ℚ))
    (h : ∀ e ∈ edges, 0 ≤ e.2.2) : NonnegG (buildGraph edges) := by
  unfold buildGraph
  refine foldl_preserve NonnegG _ edges [] ?_ ?_
  · intro x vw hvw
    exact absurd hvw (by simp [graphGet, lookupA])
  · intro e he acc hacc
    exact NonnegG_insertEdge acc e.1 e.2.1 e.2.2 hacc (h e he)

/-- Claim C8 (amended): on a graph whose edge weights are all non-negative,
every distance in the map returned by `solve_sssp_directed_real_weights` is
non-negative (it is the weight of an actual walk); the original claim's
relaxed-edge inequality at termination is refuted separately by
`claimC8_counterexample`. -/
theorem claimC8_amended (n m : ℕ) (edges : List (ℕ × ℕ × ℚ))
    (source v : ℕ) (q : ℚ)
    (hnn : ∀ e ∈ edges, 0 ≤ e.2.2)
    (h : lookupA (solve n m edges source) v = some q) :
    0 ≤ q :=
  walk_nonneg (buildGraph edges) source (buildGraph_nonneg edges hnn) v q
    (solveCore_walk n edges source (kParam n) (tParam n) (lmaxParam n) v q h)

theorem claimC8_amended_witness :
    (∀ e ∈ esEdge, (0 : ℚ) ≤ e.2.2)
    ∧ lookupA (solve 5 7 esEdge 0) 1 = some 3
    ∧ (0 : ℚ) ≤ 3 := by
  have hnn : ∀ e ∈ esEdge, (0 : ℚ) ≤ e.2.2 := by decide
  have h : lookupA (solve 5 7 esEdge 0) 1 = some 3 := by
    unfold solve
    rw [kParam_five, tParam_five, lmaxParam_five]
    decide
  exact ⟨hnn, h, claimC8_amended 5 7 esEdge 0 1 3 hnn h⟩

end SSSPVerif
